import Mathlib

/-!
Verification of the positions-finance backend event pipeline.

Shallow embedding of the consumer/producer services:
* `PricingService.ts` (vault events: deposits, withdraw requests, withdrawals),
* `RelayerService` (collateral requests, repayments, NFT ownership checks),
* `MerkleService.ts` / `NftTransferService` (ownership snapshot, Merkle proofs),
* `BlockchainEventsProcessor` (topic-filtered log extraction),
* `ProcessedBlocksService` (per-chain processed-block bookkeeping).

Modelling conventions:
* Addresses, transaction hashes, token ids, request ids and 32-byte topics are
  abstract identifiers (`Nat`); all addresses are taken to be already
  lowercase-normalised, matching the services which normalise with
  `toLowerCase()` before storing or comparing.
* USD amounts are fixed-scale decimals: the source re-rounds every balance to
  8 decimal places through `formatDecimal`/`safeAdd`/`safeSubtract`
  (utils/decimal.ts), so balances are integer multiples of 10^-8 USD; we
  model them as integers counting 10^-8 USD units, with exact arithmetic
  (the transient IEEE-double representation is abstracted away).
* Database repositories are lists of rows in insertion order; queries ordered
  by `blockNumber ASC` are modelled by a stable insertion sort on the stored
  list.
* RPC results (oracle prices, on-chain utilization) enter as parameters of the
  embedded functions, mirroring the service-call boundaries.
-/

namespace Backend

/-- Addresses, hashes, topics, ids: abstract identifiers. -/
abbrev Addr := Nat

/-- USD values in fixed-point: integer multiples of 10^-8 USD (see header). -/
abbrev USD := Int

/-- Model of `safeAdd` (utils/decimal.ts): `Number((a + b).toFixed(8))` —
exact addition at the 10^-8 fixed scale. -/
def safeAdd (a b : USD) : USD := a + b

/-- Model of `safeSubtract` (utils/decimal.ts). -/
def safeSubtract (a b : USD) : USD := a - b

/-- Model of `formatDecimal` (utils/decimal.ts): re-rounding to 8 decimals is
the identity at the 10^-8 fixed scale. -/
def formatDecimal (v : USD) : USD := v

/-! ## Ledger rows (models/Deposit.ts, Borrow.ts, Withdrawal.ts, User.ts) -/

/-- `withdrawals.status` values used by `PricingService`. -/
inductive WithdrawalStatus where
  | pending
  | completed
  | rejected
deriving DecidableEq, Repr

/-- `borrows.status` values used by `RelayerService`. -/
inductive BorrowStatus where
  | active
  | repaid
deriving DecidableEq, Repr

/-- A `deposits` row, restricted to the fields the withdrawal validator
reads (`usdValueAtDeposit`). -/
structure DepositRow where
  usdValueAtDeposit : USD
deriving DecidableEq, Repr

/-- A `borrows` row, restricted to the fields the ledger event handlers read
and write.  `loanEndDate` is a timestamp, abstract `Nat`. -/
structure BorrowRow where
  borrowedUsdAmount : USD
  repaymentAmount : USD
  status : BorrowStatus
  loanEndDate : Option Nat
deriving DecidableEq, Repr

/-- A `withdrawals` row, restricted to the fields `handleWithdrawRequest` and
`handleWithdraw` read and write.  `userId` is the owning user's id. -/
structure WithdrawalRow where
  userId : Nat
  requestId : Nat
  tokenAddress : Addr
  amount : Nat
  usdValueAtWithdrawal : USD
  status : WithdrawalStatus
deriving DecidableEq, Repr

/-- A `users` row (balance fields only). -/
structure UserRow where
  id : Nat
  totalUsdBalance : USD
  floatingUsdBalance : USD
  borrowedUsdAmount : USD
deriving DecidableEq, Repr

/-- The slice of database state `handleWithdrawRequest` touches: the event's
user together with that user's deposit and borrow rows, and the global
withdrawal table (each row carries its owner's id). -/
structure VaultState where
  user : UserRow
  deposits : List DepositRow
  borrows : List BorrowRow
  withdrawals : List WithdrawalRow
deriving DecidableEq, Repr

/-- `VaultEventService.calculateTotalDeposits`: sum of `usdValueAtDeposit`
over every deposit row of the user (no status filter in the source). -/
def calculateTotalDeposits (deposits : List DepositRow) : USD :=
  deposits.foldl (fun sum d => sum + d.usdValueAtDeposit) 0

/-- `VaultEventService.calculateTotalBorrows`: sum of `borrowedUsdAmount`
over every borrow row of the user.  The source query has no status filter,
so repaid borrows (whose residual `borrowedUsdAmount` is not zeroed on full
repayment) are included. -/
def calculateTotalBorrows (borrows : List BorrowRow) : USD :=
  borrows.foldl (fun sum b => sum + b.borrowedUsdAmount) 0

/-- `VaultEventService.calculatePendingWithdrawals`: sum of
`usdValueAtWithdrawal` over the user's withdrawals with status `pending`. -/
def calculatePendingWithdrawals (uid : Nat) (ws : List WithdrawalRow) : USD :=
  (ws.filter (fun w => w.userId = uid ∧ w.status = WithdrawalStatus.pending)).foldl
    (fun sum w => sum + w.usdValueAtWithdrawal) 0

/-- The `availableBalance` computed by `VaultEventService.validateWithdrawal`:
`totalDeposits - totalBorrows - pendingWithdrawals`. -/
def codeAvailableBalance (s : VaultState) : USD :=
  calculateTotalDeposits s.deposits - calculateTotalBorrows s.borrows -
    calculatePendingWithdrawals s.user.id s.withdrawals

/-- `VaultEventService.validateWithdrawal`: the request is valid iff
`availableBalance >= usdValue`. -/
def validateWithdrawal (s : VaultState) (usdValue : USD) : Bool :=
  decide (usdValue ≤ codeAvailableBalance s)

/-- The payload of a WITHDRAW_REQUEST / WITHDRAW vault event that the
handlers read. -/
structure WithdrawEventData where
  requestId : Nat
  asset : Addr
  amount : Nat
  usdValue : USD
deriving DecidableEq, Repr

/-- Result of `handleWithdrawRequest`: the new state and the saved
withdrawal row. -/
structure WithdrawRequestResult where
  state : VaultState
  saved : WithdrawalRow
deriving DecidableEq, Repr

/-- `VaultEventService.handleWithdrawRequest`: validate, save a withdrawal
row with status `pending`/`rejected`, and on validity debit
`floatingUsdBalance` by the event's USD value.  The on-chain
`completeWithdraw` callback is outside the ledger state. -/
def handleWithdrawRequest (s : VaultState) (e : WithdrawEventData) :
    WithdrawRequestResult :=
  let isValid := validateWithdrawal s e.usdValue
  let row : WithdrawalRow :=
    { userId := s.user.id
      requestId := e.requestId
      tokenAddress := e.asset
      amount := e.amount
      usdValueAtWithdrawal := e.usdValue
      status := if isValid then WithdrawalStatus.pending else WithdrawalStatus.rejected }
  let withdrawals' := s.withdrawals ++ [row]
  if isValid then
    { state :=
        { s with
          withdrawals := withdrawals'
          user :=
            { s.user with
              floatingUsdBalance :=
                formatDecimal (safeSubtract s.user.floatingUsdBalance e.usdValue) } }
      saved := row }
  else
    { state := { s with withdrawals := withdrawals' }, saved := row }

/-- The claim's `availableBalance` formula, following the spec's words:
`Σ deposits.usd − Σ completedWithdrawals.usd − Σ pendingWithdrawals.usd −
Σ activeBorrows.usd` (for comparison with `codeAvailableBalance`). -/
def specAvailableBalance (s : VaultState) : USD :=
  calculateTotalDeposits s.deposits -
    ((s.withdrawals.filter
        (fun w => w.userId = s.user.id ∧ w.status = WithdrawalStatus.completed)).foldl
      (fun sum w => sum + w.usdValueAtWithdrawal) 0) -
    calculatePendingWithdrawals s.user.id s.withdrawals -
    ((s.borrows.filter (fun b => b.status = BorrowStatus.active)).foldl
      (fun sum b => sum + b.borrowedUsdAmount) 0)

/-- A state refuting claimed formula C1: the user has one 100 USD deposit and
one already completed 100 USD withdrawal; no borrows, no pending
withdrawals. -/
def c1State : VaultState :=
  { user := { id := 0, totalUsdBalance := 0, floatingUsdBalance := 0, borrowedUsdAmount := 0 }
    deposits := [{ usdValueAtDeposit := 100 }]
    borrows := []
    withdrawals :=
      [{ userId := 0, requestId := 1, tokenAddress := 5, amount := 7
         usdValueAtWithdrawal := 100, status := WithdrawalStatus.completed }] }

/-- A 50 USD withdraw request against `c1State`. -/
def c1Event : WithdrawEventData :=
  { requestId := 2, asset := 5, amount := 7, usdValue := 50 }

/-- C1 counterexample: at `c1State`, the spec's `availableBalance` formula
(which subtracts completed withdrawals) yields `100 − 100 − 0 − 0 = 0 < 50`,
so the claim demands REJECTED, yet `handleWithdrawRequest` saves the
withdrawal as PENDING: the code never subtracts completed withdrawals (and,
separately, it sums all borrow rows rather than only active ones). -/
theorem handleWithdrawRequest_spec_formula_refuted :
    (handleWithdrawRequest c1State c1Event).saved.status = WithdrawalStatus.pending
      ∧ specAvailableBalance c1State < c1Event.usdValue := by
  decide

/-- Claim C1 (amended): for every WITHDRAW_REQUEST event, the ledger computes
`availableBalance = Σ deposits.usd − Σ borrows.borrowedUsdAmount (all borrow
rows, any status) − Σ pendingWithdrawals.usd` — completed withdrawals are not
subtracted — and the saved Withdrawal is PENDING iff
`availableBalance ≥ usdValue`, in which case `floatingUsdBalance` decreases
by `usdValue` while `totalUsdBalance` and `borrowedUsdAmount` are unchanged;
otherwise the Withdrawal is saved REJECTED and the user row is unchanged. -/
theorem handleWithdrawRequest_pending_iff (s : VaultState) (e : WithdrawEventData) :
    ((handleWithdrawRequest s e).saved.status = WithdrawalStatus.pending
        ↔ e.usdValue ≤ codeAvailableBalance s)
      ∧ (e.usdValue ≤ codeAvailableBalance s →
          (handleWithdrawRequest s e).state.user.floatingUsdBalance
              = s.user.floatingUsdBalance - e.usdValue
            ∧ (handleWithdrawRequest s e).state.user.totalUsdBalance
              = s.user.totalUsdBalance
            ∧ (handleWithdrawRequest s e).state.user.borrowedUsdAmount
              = s.user.borrowedUsdAmount
            ∧ (handleWithdrawRequest s e).state.withdrawals
              = s.withdrawals ++ [(handleWithdrawRequest s e).saved])
      ∧ (¬ e.usdValue ≤ codeAvailableBalance s →
          (handleWithdrawRequest s e).saved.status = WithdrawalStatus.rejected
            ∧ (handleWithdrawRequest s e).state.user = s.user
            ∧ (handleWithdrawRequest s e).state.withdrawals
              = s.withdrawals ++ [(handleWithdrawRequest s e).saved]) := by
  by_cases h : e.usdValue ≤ codeAvailableBalance s <;>
    simp [handleWithdrawRequest, validateWithdrawal, h, formatDecimal, safeSubtract]

/-- Witness for `handleWithdrawRequest_pending_iff` at a concrete valid
request: a user with a 100 USD deposit requesting 50 USD. -/
def c1WitnessState : VaultState :=
  { user := { id := 0, totalUsdBalance := 100, floatingUsdBalance := 100, borrowedUsdAmount := 0 }
    deposits := [{ usdValueAtDeposit := 100 }]
    borrows := []
    withdrawals := [] }

theorem handleWithdrawRequest_pending_iff_witness :
    (handleWithdrawRequest c1WitnessState c1Event).state.user.floatingUsdBalance
        = (100 : USD) - 50
      ∧ (handleWithdrawRequest c1WitnessState c1Event).state.user.totalUsdBalance = 100 := by
  have h := handleWithdrawRequest_pending_iff c1WitnessState c1Event
  have hle : c1Event.usdValue ≤ codeAvailableBalance c1WitnessState := by decide
  have h2 := h.2.1 hle
  refine ⟨?_, ?_⟩
  · rw [h2.1]
    decide
  · rw [h2.2.1]
    decide

/-! ## List helpers: first matching index, point update

`firstIdx` models TypeORM `findOne`/`Array.prototype.find` (first row in
store order satisfying the predicate); `updateAt` models saving the mutated
row back. -/

def firstIdx {α : Type} (p : α → Bool) : List α → Option Nat
  | [] => none
  | x :: xs => if p x then some 0 else (firstIdx p xs).map (· + 1)

def updateAt {α : Type} : List α → Nat → (α → α) → List α
  | [], _, _ => []
  | x :: xs, 0, f => f x :: xs
  | x :: xs, i + 1, f => x :: updateAt xs i f

theorem firstIdx_eq_none_iff {α : Type} (p : α → Bool) (l : List α) :
    firstIdx p l = none ↔ ∀ x ∈ l, p x = false := by
  induction l with
  | nil => simp [firstIdx]
  | cons x xs ih =>
    by_cases h : p x <;> simp [firstIdx, h, ih]

theorem firstIdx_eq_some {α : Type} (p : α → Bool) (l : List α) (i : Nat)
    (h : firstIdx p l = some i) : ∃ hi : i < l.length, p (l.get ⟨i, hi⟩) = true := by
  induction l generalizing i with
  | nil => simp [firstIdx] at h
  | cons x xs ih =>
    by_cases hx : p x
    · simp [firstIdx, hx] at h
      subst h
      exact ⟨by simp, by simpa using hx⟩
    · simp [firstIdx, hx] at h
      obtain ⟨j, hj, rfl⟩ := h
      obtain ⟨hlt, hp⟩ := ih j hj
      exact ⟨by simpa using Nat.succ_lt_succ hlt, by simpa using hp⟩

/-! ## C7: `VaultEventService.handleWithdraw` -/

/-- Primary lookup predicate of `handleWithdraw`: `findOne({requestId,
status: pending})` — note no user constraint in the source. -/
def withdrawPrimaryMatch (e : WithdrawEventData) (w : WithdrawalRow) : Bool :=
  decide (w.requestId = e.requestId) && decide (w.status = WithdrawalStatus.pending)

/-- Fallback lookup predicate of `handleWithdraw`: among the user's pending
withdrawals, the first with matching `tokenAddress` and `amount`. -/
def withdrawFallbackMatch (uid : Nat) (e : WithdrawEventData) (w : WithdrawalRow) : Bool :=
  decide (w.userId = uid) && decide (w.status = WithdrawalStatus.pending) &&
    decide (w.tokenAddress = e.asset) && decide (w.amount = e.amount)

/-- `VaultEventService.handleWithdraw`: complete the pending withdrawal found
by `requestId` (fallback: by user, asset and amount, also overwriting its
`requestId`) and debit `totalUsdBalance`; if neither lookup matches, change
nothing. -/
def handleWithdraw (user : UserRow) (ws : List WithdrawalRow) (e : WithdrawEventData) :
    UserRow × List WithdrawalRow :=
  match firstIdx (withdrawPrimaryMatch e) ws with
  | some i =>
    ({ user with totalUsdBalance := formatDecimal (safeSubtract user.totalUsdBalance e.usdValue) },
      updateAt ws i (fun w => { w with status := WithdrawalStatus.completed }))
  | none =>
    match firstIdx (withdrawFallbackMatch user.id e) ws with
    | some i =>
      ({ user with totalUsdBalance := formatDecimal (safeSubtract user.totalUsdBalance e.usdValue) },
        updateAt ws i
          (fun w => { w with status := WithdrawalStatus.completed, requestId := e.requestId }))
    | none => (user, ws)

/-- Claim C7: a WITHDRAW event that finds a PENDING withdrawal (primarily by
`requestId`, with fallback by user, asset and amount) marks that withdrawal
COMPLETED and decreases `totalUsdBalance` by `usdValue`, leaving
`floatingUsdBalance` and `borrowedUsdAmount` unchanged; if no pending
withdrawal matches, neither the user row nor the withdrawal table changes. -/
theorem handleWithdraw_completes_or_noop (user : UserRow) (ws : List WithdrawalRow)
    (e : WithdrawEventData) :
    ((handleWithdraw user ws e).1.floatingUsdBalance = user.floatingUsdBalance
        ∧ (handleWithdraw user ws e).1.borrowedUsdAmount = user.borrowedUsdAmount)
      ∧ ((∃ w ∈ ws, withdrawPrimaryMatch e w = true ∨ withdrawFallbackMatch user.id e w = true) →
          (handleWithdraw user ws e).1.totalUsdBalance = user.totalUsdBalance - e.usdValue
            ∧ ∃ i, ∃ hi : i < ws.length,
                (ws.get ⟨i, hi⟩).status = WithdrawalStatus.pending
                  ∧ (withdrawPrimaryMatch e (ws.get ⟨i, hi⟩) = true
                      ∨ withdrawFallbackMatch user.id e (ws.get ⟨i, hi⟩) = true)
                  ∧ ((handleWithdraw user ws e).2
                        = updateAt ws i (fun w => { w with status := WithdrawalStatus.completed })
                      ∨ (handleWithdraw user ws e).2
                        = updateAt ws i (fun w =>
                            { w with status := WithdrawalStatus.completed, requestId := e.requestId })))
      ∧ ((∀ w ∈ ws, withdrawPrimaryMatch e w = false ∧ withdrawFallbackMatch user.id e w = false) →
          handleWithdraw user ws e = (user, ws)) := by
  refine ⟨?_, ?_, ?_⟩
  · unfold handleWithdraw
    rcases h1 : firstIdx (withdrawPrimaryMatch e) ws with _ | i
    · rcases h2 : firstIdx (withdrawFallbackMatch user.id e) ws with _ | j <;> simp
    · simp
  · intro hex
    unfold handleWithdraw
    rcases h1 : firstIdx (withdrawPrimaryMatch e) ws with _ | i
    · rcases h2 : firstIdx (withdrawFallbackMatch user.id e) ws with _ | j
      · exfalso
        obtain ⟨w, hw, hmatch⟩ := hex
        rcases hmatch with hm | hm
        · exact absurd hm (by simp [(firstIdx_eq_none_iff _ _).mp h1 w hw])
        · exact absurd hm (by simp [(firstIdx_eq_none_iff _ _).mp h2 w hw])
      · obtain ⟨hj, hp⟩ := firstIdx_eq_some _ _ _ h2
        refine ⟨by simp [formatDecimal, safeSubtract], j, hj, ?_, Or.inr hp, Or.inr rfl⟩
        have := hp
        simp [withdrawFallbackMatch] at this
        exact this.1.1.2
    · obtain ⟨hi, hp⟩ := firstIdx_eq_some _ _ _ h1
      refine ⟨by simp [formatDecimal, safeSubtract], i, hi, ?_, Or.inl hp, Or.inl rfl⟩
      have := hp
      simp [withdrawPrimaryMatch] at this
      exact this.2
  · intro hall
    have h1 : firstIdx (withdrawPrimaryMatch e) ws = none :=
      (firstIdx_eq_none_iff _ _).mpr (fun w hw => (hall w hw).1)
    have h2 : firstIdx (withdrawFallbackMatch user.id e) ws = none :=
      (firstIdx_eq_none_iff _ _).mpr (fun w hw => (hall w hw).2)
    unfold handleWithdraw
    simp [h1, h2]

/-- Witness for `handleWithdraw_completes_or_noop`: a single pending 300 USD
withdrawal with matching requestId is completed and the 400 USD total balance
drops to 100. -/
def c7User : UserRow :=
  { id := 3, totalUsdBalance := 400, floatingUsdBalance := 100, borrowedUsdAmount := 0 }

def c7Rows : List WithdrawalRow :=
  [{ userId := 3, requestId := 9, tokenAddress := 5, amount := 7
     usdValueAtWithdrawal := 300, status := WithdrawalStatus.pending }]

def c7Event : WithdrawEventData := { requestId := 9, asset := 5, amount := 7, usdValue := 300 }

theorem handleWithdraw_completes_or_noop_witness :
    (handleWithdraw c7User c7Rows c7Event).1.totalUsdBalance = (400 : USD) - 300
      ∧ (handleWithdraw c7User c7Rows c7Event).1.floatingUsdBalance = 100 := by
  have h := handleWithdraw_completes_or_noop c7User c7Rows c7Event
  have hex : ∃ w ∈ c7Rows, withdrawPrimaryMatch c7Event w = true
      ∨ withdrawFallbackMatch c7User.id c7Event w = true := by
    refine ⟨{ userId := 3, requestId := 9, tokenAddress := 5, amount := 7
              usdValueAtWithdrawal := 300, status := WithdrawalStatus.pending },
      by simp [c7Rows], Or.inl (by decide)⟩
  refine ⟨(h.2.1 hex).1, ?_⟩
  rw [h.1.1]
  decide

/-! ## C9: `RelayerService.handleRepayEvent` -/

/-- Sum of `borrowedUsdAmount` over the rows with status `active`
(`totalActiveBorrowAmount` in `handleRepayEvent`). -/
def totalActiveBorrowAmount (borrows : List BorrowRow) : USD :=
  (borrows.filter (fun b => b.status = BorrowStatus.active)).foldl
    (fun sum b => sum + b.borrowedUsdAmount) 0

/-- The repayment loop of `handleRepayEvent`, walking the borrow rows in
store order: inactive rows are untouched (the source iterates over the
pre-filtered active rows); an active row is fully repaid when the remaining
amount covers it (status `repaid`, `loanEndDate` set, residual
`borrowedUsdAmount` untouched) and otherwise partially reduced, after which
the remaining amount is zero and the loop breaks. -/
def walkRepay (now : Nat) (rem : USD) : List BorrowRow → List BorrowRow
  | [] => []
  | b :: bs =>
    if b.status = BorrowStatus.active then
      if rem ≤ 0 then b :: walkRepay now rem bs
      else if b.borrowedUsdAmount ≤ rem then
        { b with status := BorrowStatus.repaid, repaymentAmount := b.borrowedUsdAmount
                 loanEndDate := some now } :: walkRepay now (rem - b.borrowedUsdAmount) bs
      else
        { b with borrowedUsdAmount := safeSubtract b.borrowedUsdAmount rem
                 repaymentAmount := safeAdd b.repaymentAmount rem } :: walkRepay now 0 bs
    else b :: walkRepay now rem bs

/-- `RelayerService.handleRepayEvent` after the oracle conversion: cap the
repayment at the current active borrow total, update the user balances
(`borrowedUsdAmount` floored at 0, `floatingUsdBalance` credited) and walk
the borrows oldest-first.  Returns the state unchanged when there is no
active borrow or the capped amount is not positive. -/
def handleRepayEvent (now : Nat) (user : UserRow) (borrows : List BorrowRow)
    (repayAmountInUsd : USD) : UserRow × List BorrowRow :=
  let activeBorrows := borrows.filter (fun b => b.status = BorrowStatus.active)
  if activeBorrows.isEmpty then (user, borrows)
  else
    let totalActive := totalActiveBorrowAmount borrows
    let actualRepayAmount := min repayAmountInUsd totalActive
    if actualRepayAmount ≤ 0 then (user, borrows)
    else
      ({ user with
          borrowedUsdAmount :=
            formatDecimal (max 0 (safeSubtract user.borrowedUsdAmount actualRepayAmount))
          floatingUsdBalance :=
            formatDecimal (safeAdd user.floatingUsdBalance actualRepayAmount) },
        walkRepay now actualRepayAmount borrows)

theorem walkRepay_nonpos (now : Nat) (rem : USD) (l : List BorrowRow) (h : rem ≤ 0) :
    walkRepay now rem l = l := by
  induction l with
  | nil => rfl
  | cons b bs ih =>
    by_cases hb : b.status = BorrowStatus.active <;>
      simp [walkRepay, hb, h, ih]

theorem walkRepay_length (now : Nat) (rem : USD) (l : List BorrowRow) :
    (walkRepay now rem l).length = l.length := by
  induction l generalizing rem with
  | nil => rfl
  | cons b bs ih =>
    by_cases hb : b.status = BorrowStatus.active
    · by_cases h0 : rem ≤ 0
      · simp [walkRepay, hb, h0, ih]
      · by_cases hfull : b.borrowedUsdAmount ≤ rem <;> simp [walkRepay, hb, h0, hfull, ih]
    · simp [walkRepay, hb, ih]

theorem foldl_add_shift {α : Type} (f : α → Int) (l : List α) (a : Int) :
    l.foldl (fun s x => s + f x) a = a + (l.map f).sum := by
  induction l generalizing a with
  | nil => simp
  | cons x xs ih => simp [ih, add_assoc]

theorem totalActive_eq_sum (l : List BorrowRow) :
    totalActiveBorrowAmount l =
      ((l.filter (fun b => b.status = BorrowStatus.active)).map
        (fun b => b.borrowedUsdAmount)).sum := by
  simp [totalActiveBorrowAmount, foldl_add_shift]

theorem totalActive_nil : totalActiveBorrowAmount [] = 0 := rfl

theorem totalActive_cons_active (b : BorrowRow) (bs : List BorrowRow)
    (hb : b.status = BorrowStatus.active) :
    totalActiveBorrowAmount (b :: bs) = b.borrowedUsdAmount + totalActiveBorrowAmount bs := by
  simp [totalActive_eq_sum, List.filter_cons, hb]

theorem totalActive_cons_inactive (b : BorrowRow) (bs : List BorrowRow)
    (hb : ¬ b.status = BorrowStatus.active) :
    totalActiveBorrowAmount (b :: bs) = totalActiveBorrowAmount bs := by
  simp [totalActive_eq_sum, List.filter_cons, hb]

theorem totalActive_nonneg (l : List BorrowRow) (hl : ∀ b ∈ l, 0 ≤ b.borrowedUsdAmount) :
    0 ≤ totalActiveBorrowAmount l := by
  rw [totalActive_eq_sum]
  refine List.sum_nonneg ?_
  intro x hx
  obtain ⟨b, hb, rfl⟩ := List.mem_map.mp hx
  exact hl b (List.mem_of_mem_filter hb)

theorem walkRepay_total (now : Nat) (rem : USD) (l : List BorrowRow)
    (hrem : 0 ≤ rem) (hl : ∀ b ∈ l, 0 ≤ b.borrowedUsdAmount) :
    totalActiveBorrowAmount (walkRepay now rem l) =
      totalActiveBorrowAmount l - min rem (totalActiveBorrowAmount l) := by
  induction l generalizing rem with
  | nil => simp [walkRepay, totalActive_nil, min_eq_right hrem]
  | cons b bs ih =>
    have hb0 : 0 ≤ b.borrowedUsdAmount := hl b (by simp)
    have hbs : ∀ x ∈ bs, 0 ≤ x.borrowedUsdAmount := fun x hx => hl x (by simp [hx])
    have htot : 0 ≤ totalActiveBorrowAmount bs := totalActive_nonneg bs hbs
    by_cases hb : b.status = BorrowStatus.active
    · by_cases h0 : rem ≤ 0
      · have hrem0 : rem = 0 := le_antisymm h0 hrem
        subst hrem0
        rw [walkRepay, if_pos hb, if_pos h0, walkRepay_nonpos now 0 bs le_rfl,
          totalActive_cons_active b bs hb, min_eq_left (by linarith)]
        ring
      · by_cases hfull : b.borrowedUsdAmount ≤ rem
        · rw [walkRepay, if_pos hb, if_neg h0, if_pos hfull]
          rw [totalActive_cons_inactive _ _ (by simp)]
          rw [ih (rem - b.borrowedUsdAmount) (by linarith) hbs]
          rw [totalActive_cons_active b bs hb]
          rcases le_total (rem - b.borrowedUsdAmount) (totalActiveBorrowAmount bs) with hca | hca
          · rw [min_eq_left hca, min_eq_left (by linarith)]
            ring
          · rw [min_eq_right hca, min_eq_right (by linarith)]
            ring
        · rw [walkRepay, if_pos hb, if_neg h0, if_neg hfull,
            walkRepay_nonpos now 0 bs le_rfl]
          rw [totalActive_cons_active _ bs (by simpa using hb)]
          rw [totalActive_cons_active b bs hb]
          rw [min_eq_left (by linarith)]
          simp only [safeSubtract]
          ring
    · rw [walkRepay, if_neg hb, totalActive_cons_inactive b _ hb,
        totalActive_cons_inactive b bs hb, ih rem hrem hbs]

theorem walkRepay_zip (now : Nat) (rem : USD) (l : List BorrowRow) (h0 : 0 ≤ rem) :
    ∀ p ∈ l.zip (walkRepay now rem l),
      p.2 = p.1
        ∨ (p.1.status = BorrowStatus.active ∧ p.2.status = BorrowStatus.repaid
            ∧ p.2.loanEndDate = some now
            ∧ p.2.borrowedUsdAmount = p.1.borrowedUsdAmount)
        ∨ (p.1.status = BorrowStatus.active ∧ p.2.status = BorrowStatus.active
            ∧ p.2.borrowedUsdAmount < p.1.borrowedUsdAmount) := by
  induction l generalizing rem with
  | nil => simp [walkRepay]
  | cons b bs ih =>
    intro p hp
    by_cases hb : b.status = BorrowStatus.active
    · by_cases hz : rem ≤ 0
      · rw [walkRepay, if_pos hb, if_pos hz] at hp
        rcases (List.mem_cons).mp hp with hh | ht
        · exact Or.inl (by simp [hh])
        · exact ih rem h0 p ht
      · by_cases hfull : b.borrowedUsdAmount ≤ rem
        · rw [walkRepay, if_pos hb, if_neg hz, if_pos hfull] at hp
          rcases (List.mem_cons).mp hp with hh | ht
          · refine Or.inr (Or.inl ?_)
            subst hh
            exact ⟨hb, rfl, rfl, rfl⟩
          · exact ih (rem - b.borrowedUsdAmount) (by linarith) p ht
        · rw [walkRepay, if_pos hb, if_neg hz, if_neg hfull] at hp
          rcases (List.mem_cons).mp hp with hh | ht
          · refine Or.inr (Or.inr ?_)
            subst hh
            refine ⟨hb, hb, ?_⟩
            simp only [safeSubtract]
            linarith
          · exact ih 0 le_rfl p ht
    · rw [walkRepay, if_neg hb] at hp
      rcases (List.mem_cons).mp hp with hh | ht
      · exact Or.inl (by simp [hh])
      · exact ih rem h0 p ht

/-- If the walk leaves some later borrow changed, every earlier active borrow
was fully repaid: the repayment is applied strictly oldest-first. -/
theorem walkRepay_oldest_first (now : Nat) (rem : USD) (l : List BorrowRow) :
    ∀ i j, i < j →
      (∃ b, l.get? i = some b ∧ b.status = BorrowStatus.active) →
      (walkRepay now rem l).get? j ≠ l.get? j →
      ∃ c, (walkRepay now rem l).get? i = some c ∧ c.status = BorrowStatus.repaid := by
  induction l generalizing rem with
  | nil =>
    intro i j _ hb _
    obtain ⟨b, hb', _⟩ := hb
    simp at hb'
  | cons b bs ih =>
    intro i j hij hbi hj
    by_cases hb : b.status = BorrowStatus.active
    · by_cases hz : rem ≤ 0
      · exfalso
        rw [walkRepay, if_pos hb, if_pos hz, walkRepay_nonpos now rem bs hz] at hj
        exact hj rfl
      · by_cases hfull : b.borrowedUsdAmount ≤ rem
        · rw [walkRepay, if_pos hb, if_neg hz, if_pos hfull]
          match i, j, hij with
          | 0, j + 1, _ => exact ⟨_, rfl, rfl⟩
          | i + 1, j + 1, hij =>
            rw [walkRepay, if_pos hb, if_neg hz, if_pos hfull] at hj
            obtain ⟨bi, hbi', hact⟩ := hbi
            simp only [List.get?_cons_succ] at hbi' hj ⊢
            exact ih (rem - b.borrowedUsdAmount) i j (Nat.lt_of_succ_lt_succ hij)
              ⟨bi, hbi', hact⟩ hj
        · rw [walkRepay, if_pos hb, if_neg hz, if_neg hfull,
            walkRepay_nonpos now 0 bs le_rfl] at hj ⊢
          match i, j, hij with
          | 0, j + 1, _ =>
            exfalso
            exact hj (by simp)
          | i + 1, j + 1, hij =>
            exfalso
            exact hj (by simp)
    · rw [walkRepay, if_neg hb]
      match i, j, hij with
      | 0, j + 1, _ =>
        obtain ⟨bi, hbi', hact⟩ := hbi
        simp only [List.get?_cons_zero, Option.some.injEq] at hbi'
        subst hbi'
        exact absurd hact hb
      | i + 1, j + 1, hij =>
        rw [walkRepay, if_neg hb] at hj
        obtain ⟨bi, hbi', hact⟩ := hbi
        simp only [List.get?_cons_succ] at hbi' hj ⊢
        exact ih rem i j (Nat.lt_of_succ_lt_succ hij) ⟨bi, hbi', hact⟩ hj

/-- Uniform characterization of `handleRepayEvent` under non-negativity: the
early returns (no active borrow, or capped amount not positive) coincide
with applying a zero repayment. -/
theorem handleRepayEvent_eq (now : Nat) (user : UserRow) (borrows : List BorrowRow)
    (repayUsd : USD) (hr : 0 ≤ repayUsd)
    (hb : ∀ b ∈ borrows, 0 ≤ b.borrowedUsdAmount) (hu : 0 ≤ user.borrowedUsdAmount) :
    handleRepayEvent now user borrows repayUsd =
      ({ user with
          borrowedUsdAmount :=
            max 0 (user.borrowedUsdAmount - min repayUsd (totalActiveBorrowAmount borrows))
          floatingUsdBalance :=
            user.floatingUsdBalance + min repayUsd (totalActiveBorrowAmount borrows) },
        walkRepay now (min repayUsd (totalActiveBorrowAmount borrows)) borrows) := by
  have htot : 0 ≤ totalActiveBorrowAmount borrows := totalActive_nonneg borrows hb
  simp only [handleRepayEvent]
  split_ifs with h1 h2
  · have hzero : totalActiveBorrowAmount borrows = 0 := by
      rw [totalActive_eq_sum, List.isEmpty_iff.mp h1]
      rfl
    rw [hzero, min_eq_right hr, walkRepay_nonpos now 0 borrows le_rfl, sub_zero,
      max_eq_right hu, add_zero]
  · have hmin : min repayUsd (totalActiveBorrowAmount borrows) = 0 :=
      le_antisymm h2 (le_min hr htot)
    rw [hmin, walkRepay_nonpos now 0 borrows le_rfl, sub_zero, max_eq_right hu, add_zero]
  · rfl

/-- Claim C9: for every REPAY event the repaid USD amount is
`min(event USD value, total active borrow amount)` (visible in the exact
credit to `floatingUsdBalance` and the exact debit of the active borrow
total), the user's `borrowedUsdAmount` is never driven negative, and the
borrows are walked oldest-first, each either fully repaid (status `repaid`,
`loanEndDate` set) or partially reduced by the remaining repayment. -/
theorem handleRepayEvent_caps_at_active_total (now : Nat) (user : UserRow)
    (borrows : List BorrowRow) (repayUsd : USD)
    (hr : 0 ≤ repayUsd) (hb : ∀ b ∈ borrows, 0 ≤ b.borrowedUsdAmount)
    (hu : 0 ≤ user.borrowedUsdAmount) :
    (handleRepayEvent now user borrows repayUsd).1.floatingUsdBalance
        = user.floatingUsdBalance + min repayUsd (totalActiveBorrowAmount borrows)
      ∧ (handleRepayEvent now user borrows repayUsd).1.borrowedUsdAmount
        = max 0 (user.borrowedUsdAmount - min repayUsd (totalActiveBorrowAmount borrows))
      ∧ 0 ≤ (handleRepayEvent now user borrows repayUsd).1.borrowedUsdAmount
      ∧ totalActiveBorrowAmount (handleRepayEvent now user borrows repayUsd).2
        = totalActiveBorrowAmount borrows - min repayUsd (totalActiveBorrowAmount borrows)
      ∧ (∀ p ∈ borrows.zip (handleRepayEvent now user borrows repayUsd).2,
          p.2 = p.1
            ∨ (p.1.status = BorrowStatus.active ∧ p.2.status = BorrowStatus.repaid
                ∧ p.2.loanEndDate = some now
                ∧ p.2.borrowedUsdAmount = p.1.borrowedUsdAmount)
            ∨ (p.1.status = BorrowStatus.active ∧ p.2.status = BorrowStatus.active
                ∧ p.2.borrowedUsdAmount < p.1.borrowedUsdAmount))
      ∧ (∀ i j, i < j →
          (∃ b, borrows.get? i = some b ∧ b.status = BorrowStatus.active) →
          (handleRepayEvent now user borrows repayUsd).2.get? j ≠ borrows.get? j →
          ∃ c, (handleRepayEvent now user borrows repayUsd).2.get? i = some c
            ∧ c.status = BorrowStatus.repaid) := by
  have htot : 0 ≤ totalActiveBorrowAmount borrows := totalActive_nonneg borrows hb
  have hm0 : 0 ≤ min repayUsd (totalActiveBorrowAmount borrows) := le_min hr htot
  have hmT : min repayUsd (totalActiveBorrowAmount borrows) ≤ totalActiveBorrowAmount borrows :=
    min_le_right _ _
  rw [handleRepayEvent_eq now user borrows repayUsd hr hb hu]
  refine ⟨rfl, rfl, le_max_left _ _, ?_, ?_, ?_⟩
  · rw [walkRepay_total now _ borrows hm0 hb, min_eq_left hmT]
  · exact walkRepay_zip now _ borrows hm0
  · exact walkRepay_oldest_first now _ borrows

/-- Witness for `handleRepayEvent_caps_at_active_total`: a 100 USD repay
against a single 80 USD active borrow repays exactly 80. -/
def c9User : UserRow :=
  { id := 1, totalUsdBalance := 500, floatingUsdBalance := 100, borrowedUsdAmount := 80 }

def c9Borrows : List BorrowRow :=
  [{ borrowedUsdAmount := 80, repaymentAmount := 0, status := BorrowStatus.active
     loanEndDate := none }]

theorem handleRepayEvent_caps_at_active_total_witness :
    (handleRepayEvent 1000 c9User c9Borrows 100).1.floatingUsdBalance
        = c9User.floatingUsdBalance + min 100 (totalActiveBorrowAmount c9Borrows)
      ∧ 0 ≤ (handleRepayEvent 1000 c9User c9Borrows 100).1.borrowedUsdAmount := by
  have h := handleRepayEvent_caps_at_active_total 1000 c9User c9Borrows 100
    (by decide) (by decide) (by decide)
  exact ⟨h.1, h.2.2.1⟩

/-! ## C8: `ProcessedBlocksService` (processed-blocks bookkeeping) -/

/-- A `processed_blocks` row, restricted to the fields the service queries
(`chainId`, `blockNumber`, `isReorged`). -/
structure ProcessedBlockRow where
  chainId : Nat
  blockNumber : Nat
  isReorged : Bool
deriving DecidableEq, Repr

abbrev PBStore := List ProcessedBlockRow

/-- Maximum of a nonempty list of naturals (`findOne` with
`order: blockNumber DESC`). -/
def natListMax? : List Nat → Option Nat
  | [] => none
  | x :: xs => some (xs.foldl max x)

/-- `ProcessedBlocksService.addBlock`: insert a fresh non-reorged row. -/
def addBlock (chainId blockNumber : Nat) (s : PBStore) : PBStore :=
  s ++ [{ chainId := chainId, blockNumber := blockNumber, isReorged := false }]

/-- `ProcessedBlocksService.addBlocks`: batch insert. -/
def addBlocks (chainId : Nat) (ns : List Nat) (s : PBStore) : PBStore :=
  s ++ ns.map (fun n => { chainId := chainId, blockNumber := n, isReorged := false })

/-- `ProcessedBlocksService.getLatestProcessedBlock`: the greatest
`blockNumber` among the chain's non-reorged rows. -/
def latestProcessedBlock (chainId : Nat) (s : PBStore) : Option Nat :=
  natListMax?
    ((s.filter (fun r => r.chainId = chainId ∧ r.isReorged = false)).map
      (fun r => r.blockNumber))

/-- `ProcessedBlocksService.markBlocksAsReorged`: set `isReorged` on every
row of the chain whose `blockNumber` lies between the minimum and the
maximum of the given list (the source updates `Between(min, max)`, not the
exact set). -/
def markBlocksAsReorged (chainId : Nat) (ns : List Nat) (s : PBStore) : PBStore :=
  match ns with
  | [] => s
  | n0 :: rest =>
    let lo := rest.foldl min n0
    let hi := rest.foldl max n0
    s.map (fun r =>
      if r.chainId = chainId ∧ lo ≤ r.blockNumber ∧ r.blockNumber ≤ hi then
        { r with isReorged := true }
      else r)

/-- `ProcessedBlocksService.cleanupOldBlocks`: delete the chain's rows with
`blockNumber ≤ latest − keepBlocksCount` (regardless of `isReorged`),
guarded by `latest.blockNumber ≥ keepBlocksCount`. -/
def cleanupOldBlocks (chainId keepBlocksCount : Nat) (s : PBStore) : PBStore :=
  match latestProcessedBlock chainId s with
  | none => s
  | some latest =>
    if latest < keepBlocksCount then s
    else s.filter (fun r => ¬(r.chainId = chainId ∧ r.blockNumber ≤ latest - keepBlocksCount))

/-- The operations of `ProcessedBlocksService` that modify the store. -/
inductive PBOp where
  | add (chainId n : Nat)
  | addMany (chainId : Nat) (ns : List Nat)
  | reorg (chainId : Nat) (ns : List Nat)
  | cleanup (chainId keep : Nat)
deriving DecidableEq, Repr

def applyPBOp : PBOp → PBStore → PBStore
  | PBOp.add c n, s => addBlock c n s
  | PBOp.addMany c ns, s => addBlocks c ns s
  | PBOp.reorg c ns, s => markBlocksAsReorged c ns s
  | PBOp.cleanup c keep, s => cleanupOldBlocks c keep s

def applyPBOps (ops : List PBOp) (s : PBStore) : PBStore :=
  ops.foldl (fun s op => applyPBOp op s) s

/-- `latestProcessed(chainId) ≥ n` as a state predicate. -/
def LatestAtLeast (c n : Nat) (s : PBStore) : Prop :=
  ∃ m, latestProcessedBlock c s = some m ∧ n ≤ m

/-- Operations that do not reorg chain `c` and never run cleanup with a zero
retention window on chain `c`. -/
def pbOpSafe (c : Nat) : PBOp → Bool
  | PBOp.add _ _ => true
  | PBOp.addMany _ _ => true
  | PBOp.reorg c' _ => decide (c' ≠ c)
  | PBOp.cleanup c' keep => decide (c' ≠ c) || decide (1 ≤ keep)

theorem foldl_max_self_le (x : Nat) (l : List Nat) : x ≤ l.foldl max x := by
  induction l generalizing x with
  | nil => exact le_rfl
  | cons y ys ih => exact le_trans (le_max_left x y) (ih (max x y))

theorem foldl_max_le_of_mem (l : List Nat) (z : Nat) :
    ∀ x, z ∈ l → z ≤ l.foldl max x := by
  induction l with
  | nil =>
    intro x hx
    cases hx
  | cons y ys ih =>
    intro x hx
    rcases List.mem_cons.mp hx with rfl | hz'
    · exact le_trans (le_max_right x z) (foldl_max_self_le _ ys)
    · exact ih (max x y) hz'

theorem foldl_max_mem (l : List Nat) : ∀ x, l.foldl max x = x ∨ l.foldl max x ∈ l := by
  induction l with
  | nil =>
    intro x
    exact Or.inl rfl
  | cons y ys ih =>
    intro x
    rcases ih (max x y) with heq | hmem
    · rw [List.foldl_cons, heq]
      rcases max_choice x y with h | h
      · exact Or.inl h
      · exact Or.inr (by rw [h]; exact List.mem_cons_self y ys)
    · exact Or.inr (List.mem_cons_of_mem y hmem)

theorem natListMax?_spec (l : List Nat) (m : Nat) (h : natListMax? l = some m) :
    m ∈ l ∧ ∀ x ∈ l, x ≤ m := by
  match l with
  | [] => simp [natListMax?] at h
  | x :: xs =>
    simp only [natListMax?, Option.some.injEq] at h
    subst h
    constructor
    · rcases foldl_max_mem xs x with heq | hmem
      · rw [heq]
        exact List.mem_cons_self x xs
      · exact List.mem_cons_of_mem x hmem
    · intro z hz
      rcases List.mem_cons.mp hz with rfl | hz'
      · exact foldl_max_self_le z xs
      · exact foldl_max_le_of_mem xs z x hz'

theorem natListMax?_mem_le (l : List Nat) (x : Nat) (hx : x ∈ l) :
    ∃ m, natListMax? l = some m ∧ x ≤ m := by
  match l with
  | [] => simp at hx
  | y :: ys =>
    refine ⟨ys.foldl max y, rfl, ?_⟩
    have h := natListMax?_spec (y :: ys) (ys.foldl max y) rfl
    exact h.2 x hx

theorem latestAtLeast_iff (c n : Nat) (s : PBStore) :
    LatestAtLeast c n s ↔
      ∃ r ∈ s, r.chainId = c ∧ r.isReorged = false ∧ n ≤ r.blockNumber := by
  constructor
  · rintro ⟨m, hm, hnm⟩
    obtain ⟨hmem, -⟩ := natListMax?_spec _ _ hm
    obtain ⟨r, hr, hrb⟩ := List.mem_map.mp hmem
    have hr' := List.mem_filter.mp hr
    refine ⟨r, hr'.1, ?_, ?_, ?_⟩
    · have := hr'.2
      simp at this
      exact this.1
    · have := hr'.2
      simp at this
      exact this.2
    · omega
  · rintro ⟨r, hr, hc, hnr, hge⟩
    have hmem : r.blockNumber ∈
        ((s.filter (fun r => r.chainId = c ∧ r.isReorged = false)).map
          (fun r => r.blockNumber)) := by
      exact List.mem_map.mpr ⟨r, List.mem_filter.mpr ⟨hr, by simp [hc, hnr]⟩, rfl⟩
    obtain ⟨m, hm, hle⟩ := natListMax?_mem_le _ _ hmem
    exact ⟨m, hm, le_trans hge hle⟩

theorem cleanupOldBlocks_none (c keep : Nat) (s : PBStore)
    (h : latestProcessedBlock c s = none) : cleanupOldBlocks c keep s = s := by
  unfold cleanupOldBlocks
  rw [h]

theorem cleanupOldBlocks_some (c keep : Nat) (s : PBStore) (latest : Nat)
    (h : latestProcessedBlock c s = some latest) :
    cleanupOldBlocks c keep s =
      if latest < keep then s
      else s.filter (fun r => ¬(r.chainId = c ∧ r.blockNumber ≤ latest - keep)) := by
  unfold cleanupOldBlocks
  rw [h]

theorem applyPBOp_preserves_latest (c n : Nat) (op : PBOp) (s : PBStore)
    (hsafe : pbOpSafe c op = true) (h : LatestAtLeast c n s) :
    LatestAtLeast c n (applyPBOp op s) := by
  obtain ⟨r, hr, hc, hnr, hge⟩ := (latestAtLeast_iff c n s).mp h
  match op with
  | PBOp.add c' m =>
    exact (latestAtLeast_iff c n _).mpr ⟨r, by simp [applyPBOp, addBlock, hr], hc, hnr, hge⟩
  | PBOp.addMany c' ns =>
    exact (latestAtLeast_iff c n _).mpr ⟨r, by simp [applyPBOp, addBlocks, hr], hc, hnr, hge⟩
  | PBOp.reorg c' ns =>
    have hne : c' ≠ c := by simpa [pbOpSafe] using hsafe
    refine (latestAtLeast_iff c n _).mpr ⟨r, ?_, hc, hnr, hge⟩
    show r ∈ markBlocksAsReorged c' ns s
    unfold markBlocksAsReorged
    match ns with
    | [] => exact hr
    | n0 :: rest =>
      have hfix : (if r.chainId = c' ∧ rest.foldl min n0 ≤ r.blockNumber
            ∧ r.blockNumber ≤ rest.foldl max n0 then
          { r with isReorged := true }
        else r) = r := by
        rw [if_neg]
        rintro ⟨hcc, -⟩
        exact hne (by rw [← hcc, hc])
      exact hfix ▸ List.mem_map_of_mem _ hr
  | PBOp.cleanup c' keep =>
    show LatestAtLeast c n (cleanupOldBlocks c' keep s)
    by_cases hcc : c' = c
    · subst hcc
      obtain ⟨m, hm, hnm⟩ := h
      have hkeep : 1 ≤ keep := by
        rcases (by simpa [pbOpSafe] using hsafe : c' ≠ c' ∨ 1 ≤ keep) with h' | h'
        · exact absurd rfl h'
        · exact h'
      rw [cleanupOldBlocks_some c' keep s m hm]
      by_cases hlt : m < keep
      · rw [if_pos hlt]
        exact ⟨m, hm, hnm⟩
      · rw [if_neg hlt]
        obtain ⟨hmem, -⟩ := natListMax?_spec _ _ hm
        obtain ⟨rm, hrm, hrmb⟩ := List.mem_map.mp hmem
        have hrm' := List.mem_filter.mp hrm
        have hrmc : rm.chainId = c' ∧ rm.isReorged = false := by
          have := hrm'.2
          simpa using this
        refine (latestAtLeast_iff c' n _).mpr ⟨rm, ?_, hrmc.1, hrmc.2, by omega⟩
        refine List.mem_filter.mpr ⟨hrm'.1, ?_⟩
        simp only [decide_eq_true_eq]
        rintro ⟨-, hle⟩
        omega
    · rcases hlat : latestProcessedBlock c' s with _ | latest
      · rw [cleanupOldBlocks_none c' keep s hlat]
        exact h
      · rw [cleanupOldBlocks_some c' keep s latest hlat]
        by_cases hlt : latest < keep
        · rw [if_pos hlt]
          exact h
        · rw [if_neg hlt]
          refine (latestAtLeast_iff c n _).mpr ⟨r, ?_, hc, hnr, hge⟩
          refine List.mem_filter.mpr ⟨hr, ?_⟩
          simp only [decide_eq_true_eq]
          rintro ⟨hcc', -⟩
          exact hcc (by rw [← hcc', hc])

theorem applyPBOps_preserves_latest (c n : Nat) (ops : List PBOp) :
    ∀ s : PBStore, LatestAtLeast c n s → (∀ op ∈ ops, pbOpSafe c op = true) →
      LatestAtLeast c n (applyPBOps ops s) := by
  induction ops with
  | nil =>
    intro s h _
    exact h
  | cons op rest ih =>
    intro s h hops
    exact ih _ (applyPBOp_preserves_latest c n op s (hops op (by simp)) h)
      (fun o ho => hops o (by simp [ho]))

/-- C8 counterexample: after `addBlock(1, 5)` has returned,
`latestProcessed(1) = 5`, but a subsequent `markBlocksAsReorged(1, [5])`
reorgs row 5 and `latestProcessed(1)` becomes `none` — so
`latestProcessed(chainId) ≥ n` does not hold at every later point of
executions in which `markBlocksAsReorged` runs. -/
theorem latestProcessed_reorg_counterexample :
    latestProcessedBlock 1 (addBlock 1 5 []) = some 5
      ∧ latestProcessedBlock 1 (applyPBOp (PBOp.reorg 1 [5]) (addBlock 1 5 [])) = none := by
  decide

/-- Claim C8 (amended): once `addProcessed(n)` has returned,
`latestProcessed(chainId) ≥ n` holds at every later point of every execution
whose subsequent operations do not reorg that chain and do not run cleanup
on that chain with a zero retention window: `addBlock`/`addBlocks` on any
chain, `markBlocksAsReorged` on other chains, and `cleanupOldBlocks` with
`keepBlocksCount ≥ 1` all preserve it.  A `markBlocksAsReorged` on the same
chain whose range covers the remaining blocks can drop `latestProcessed`
below `n` (see the counterexample), so the unconditional claim fails. -/
theorem latestProcessed_monotone_without_reorg (c n : Nat) (s : PBStore)
    (ops : List PBOp) (hops : ∀ op ∈ ops, pbOpSafe c op = true) :
    LatestAtLeast c n (applyPBOps ops (addBlock c n s)) := by
  refine applyPBOps_preserves_latest c n ops (addBlock c n s) ?_ hops
  exact (latestAtLeast_iff c n _).mpr
    ⟨{ chainId := c, blockNumber := n, isReorged := false }, by simp [addBlock], rfl, rfl,
      le_rfl⟩

/-- Witness for `latestProcessed_monotone_without_reorg`: block 5 of chain 1
stays visible through additions, a cleanup with retention 3 and a reorg of
chain 2. -/
theorem latestProcessed_monotone_without_reorg_witness :
    LatestAtLeast 1 5
      (applyPBOps
        [PBOp.add 1 7, PBOp.cleanup 1 3, PBOp.reorg 2 [5], PBOp.addMany 1 [9, 10]]
        (addBlock 1 5 [])) := by
  exact latestProcessed_monotone_without_reorg 1 5 []
    [PBOp.add 1 7, PBOp.cleanup 1 3, PBOp.reorg 2 [5], PBOp.addMany 1 [9, 10]]
    (by decide)

/-! ## NFT transfers and ownership snapshots (MerkleService.ts,
NftTransferService) -/

/-- An `nft_transfers` row, restricted to the fields the Merkle engine reads.
`tokenId` is stored as a (non-empty) decimal string in the source, so the
truthiness guard `transfer.tokenId && transfer.toAddress` always passes;
the row's `logIndex` column exists but is never written or read by the
snapshot code. -/
structure NftTransfer where
  transactionHash : Nat
  blockNumber : Nat
  tokenId : Nat
  fromAddress : Addr
  toAddress : Addr
  includedInMerkle : Bool
  merkleRoot : Option Nat
deriving DecidableEq, Repr

/-- One step of a stable insertion sort by `blockNumber`: the element goes
before the first list entry whose block number is not smaller.  Models both
the `ORDER BY blockNumber ASC` queries and the (stable)
`transfers.sort((a, b) => a.blockNumber - b.blockNumber)` of
`NftTransferService.getCurrentOwnershipFromTransfers`. -/
def insertByBlock (x : NftTransfer) : List NftTransfer → List NftTransfer
  | [] => [x]
  | y :: ys =>
    if y.blockNumber < x.blockNumber then y :: insertByBlock x ys else x :: y :: ys

def sortByBlock : List NftTransfer → List NftTransfer
  | [] => []
  | x :: xs => insertByBlock x (sortByBlock xs)

/-- `MerkleService.getCurrentOwnershipFromTransfers` (the variant without an
internal sort), as a lookup: walk the transfers in the given list order,
the later assignment to a token overwriting the earlier
(`ownership[tokenId] = toAddress`). -/
def snapshotOwner (ts : List NftTransfer) (t : Nat) : Option Addr :=
  ts.foldl (fun acc tr => if tr.tokenId = t then some tr.toAddress else acc) none

/-- `NftTransferService.getCurrentOwnershipFromTransfers`: same walk after a
stable sort by `blockNumber`. -/
def nftSnapshotOwner (ts : List NftTransfer) (t : Nat) : Option Addr :=
  snapshotOwner (sortByBlock ts) t

/-- One step of the claim-side "transfer with greatest blockNumber, later
insertion winning ties" selection. -/
def argmaxStep (acc : Option NftTransfer) (tr : NftTransfer) : Option NftTransfer :=
  match acc with
  | none => some tr
  | some b => if b.blockNumber ≤ tr.blockNumber then some tr else some b

def argmaxTransfer (l : List NftTransfer) : Option NftTransfer :=
  l.foldl argmaxStep none

/-- The claim's OwnershipSnapshot, following the spec's words: for each
tokenId, the `to` address of the transfer with the greatest `blockNumber`
(ties broken towards later insertion; the rows carry no usable log index). -/
def specSnapshotOwner (ts : List NftTransfer) (t : Nat) : Option Addr :=
  (argmaxTransfer (ts.filter (fun tr => tr.tokenId = t))).map (fun tr => tr.toAddress)

theorem getLast?_cons_eq {α : Type} (x : α) (l : List α) :
    (x :: l).getLast? = match l.getLast? with
      | some b => some b
      | none => some x := by
  cases l with
  | nil => rfl
  | cons y ys =>
    rw [List.getLast?_cons_cons]
    cases h : (y :: ys).getLast? with
    | none =>
      exfalso
      rw [List.getLast?_eq_getLast _ (by simp)] at h
      exact Option.noConfusion h
    | some b => rfl

theorem getLast?_mem {α : Type} (l : List α) (b : α) (h : l.getLast? = some b) :
    b ∈ l := by
  induction l with
  | nil => exact Option.noConfusion h
  | cons x xs ih =>
    rw [getLast?_cons_eq] at h
    cases hx : xs.getLast? with
    | none =>
      rw [hx] at h
      cases h
      exact List.mem_cons_self _ _
    | some c =>
      rw [hx] at h
      cases h
      exact List.mem_cons_of_mem _ (ih hx)

theorem snapshot_foldl_eq (t : Nat) (ts : List NftTransfer) :
    ∀ a : Option Addr,
      ts.foldl (fun acc tr => if tr.tokenId = t then some tr.toAddress else acc) a
        = match (ts.filter (fun tr => tr.tokenId = t)).getLast? with
          | some tr => some tr.toAddress
          | none => a := by
  induction ts with
  | nil =>
    intro a
    rfl
  | cons x xs ih =>
    intro a
    by_cases hx : x.tokenId = t
    · rw [List.foldl_cons, if_pos hx, ih (some x.toAddress),
        List.filter_cons_of_pos (by simpa using hx), getLast?_cons_eq]
      cases hlast : (xs.filter (fun tr => tr.tokenId = t)).getLast? <;> rfl
    · rw [List.foldl_cons, if_neg hx, ih a,
        List.filter_cons_of_neg (by simpa using hx)]

theorem mem_insertByBlock (x z : NftTransfer) (l : List NftTransfer) :
    z ∈ insertByBlock x l ↔ z = x ∨ z ∈ l := by
  induction l with
  | nil => simp [insertByBlock]
  | cons y ys ih =>
    by_cases h : y.blockNumber < x.blockNumber
    · rw [insertByBlock, if_pos h]
      simp only [List.mem_cons, ih]
      tauto
    · rw [insertByBlock, if_neg h]
      simp only [List.mem_cons]

theorem insertByBlock_sorted (x : NftTransfer) (l : List NftTransfer)
    (hs : List.Pairwise (fun a b : NftTransfer => a.blockNumber ≤ b.blockNumber) l) :
    List.Pairwise (fun a b : NftTransfer => a.blockNumber ≤ b.blockNumber)
      (insertByBlock x l) := by
  induction l with
  | nil => simp [insertByBlock]
  | cons y ys ih =>
    obtain ⟨hy, hys⟩ := List.pairwise_cons.mp hs
    by_cases h : y.blockNumber < x.blockNumber
    · rw [insertByBlock, if_pos h]
      refine List.pairwise_cons.mpr ⟨?_, ih hys⟩
      intro z hz
      rcases (mem_insertByBlock x z ys).mp hz with rfl | hz'
      · omega
      · exact hy z hz'
    · rw [insertByBlock, if_neg h]
      refine List.pairwise_cons.mpr ⟨?_, hs⟩
      intro z hz
      rcases List.mem_cons.mp hz with rfl | hz'
      · omega
      · have := hy z hz'
        omega

theorem sortByBlock_sorted (l : List NftTransfer) :
    List.Pairwise (fun a b : NftTransfer => a.blockNumber ≤ b.blockNumber)
      (sortByBlock l) := by
  induction l with
  | nil => simp [sortByBlock]
  | cons x xs ih => exact insertByBlock_sorted x (sortByBlock xs) ih

theorem insertByBlock_eq_cons (x : NftTransfer) (l : List NftTransfer)
    (h : ∀ z ∈ l, ¬ z.blockNumber < x.blockNumber) :
    insertByBlock x l = x :: l := by
  cases l with
  | nil => rfl
  | cons y ys => exact if_neg (h y (List.mem_cons_self _ _))

theorem filter_insertByBlock (p : NftTransfer → Bool) (x : NftTransfer)
    (l : List NftTransfer)
    (hs : List.Pairwise (fun a b : NftTransfer => a.blockNumber ≤ b.blockNumber) l) :
    (insertByBlock x l).filter p =
      if p x then insertByBlock x (l.filter p) else l.filter p := by
  induction l with
  | nil =>
    by_cases hx : p x <;> simp [insertByBlock, hx]
  | cons y ys ih =>
    obtain ⟨hy, hys⟩ := List.pairwise_cons.mp hs
    by_cases h : y.blockNumber < x.blockNumber
    · rw [insertByBlock, if_pos h]
      by_cases hpy : p y
      · rw [List.filter_cons_of_pos hpy, ih hys, List.filter_cons_of_pos hpy]
        by_cases hpx : p x
        · rw [if_pos hpx, if_pos hpx, insertByBlock, if_pos h]
        · rw [if_neg hpx, if_neg hpx]
      · rw [List.filter_cons_of_neg hpy, ih hys, List.filter_cons_of_neg hpy]
    · rw [insertByBlock, if_neg h]
      by_cases hpx : p x
      · rw [List.filter_cons_of_pos hpx, if_pos hpx]
        rw [insertByBlock_eq_cons]
        intro z hz
        have hz' := List.mem_filter.mp hz
        rcases List.mem_cons.mp hz'.1 with rfl | hmem
        · omega
        · have := hy z hmem
          omega
      · rw [List.filter_cons_of_neg hpx, if_neg hpx]

theorem filter_sortByBlock (p : NftTransfer → Bool) (l : List NftTransfer) :
    (sortByBlock l).filter p = sortByBlock (l.filter p) := by
  induction l with
  | nil => rfl
  | cons x xs ih =>
    rw [sortByBlock, filter_insertByBlock p x (sortByBlock xs) (sortByBlock_sorted xs), ih]
    by_cases hx : p x
    · rw [if_pos hx, List.filter_cons_of_pos hx, sortByBlock]
    · rw [if_neg hx, List.filter_cons_of_neg hx]

theorem getLast?_insertByBlock (x : NftTransfer) (l : List NftTransfer)
    (hs : List.Pairwise (fun a b : NftTransfer => a.blockNumber ≤ b.blockNumber) l) :
    (insertByBlock x l).getLast? = match l.getLast? with
      | none => some x
      | some b => if b.blockNumber < x.blockNumber then some x else some b := by
  induction l with
  | nil => rfl
  | cons y ys ih =>
    obtain ⟨hy, hys⟩ := List.pairwise_cons.mp hs
    by_cases h : y.blockNumber < x.blockNumber
    · rw [insertByBlock, if_pos h]
      simp only [getLast?_cons_eq, ih hys]
      cases hlast : ys.getLast? with
      | none => simp [h]
      | some b => by_cases hbx : b.blockNumber < x.blockNumber <;> simp [hbx, h]
    · rw [insertByBlock, if_neg h]
      simp only [getLast?_cons_eq]
      cases hlast : ys.getLast? with
      | none => simp [h]
      | some b =>
        have hb : b ∈ ys := getLast?_mem ys b hlast
        have hxb := hy b hb
        simp [show ¬ b.blockNumber < x.blockNumber by omega]

theorem argmax_foldl_from_some (xs : List NftTransfer) :
    ∀ x : NftTransfer,
      xs.foldl argmaxStep (some x) = match argmaxTransfer xs with
        | none => some x
        | some b => if b.blockNumber < x.blockNumber then some x else some b := by
  induction xs with
  | nil =>
    intro x
    rfl
  | cons y ys ih =>
    intro x
    have hstep : argmaxStep (some x) y
        = some (if x.blockNumber ≤ y.blockNumber then y else x) := by
      unfold argmaxStep
      by_cases hxy : x.blockNumber ≤ y.blockNumber <;> simp [hxy]
    have hrhs : argmaxTransfer (y :: ys) = ys.foldl argmaxStep (some y) := rfl
    rw [List.foldl_cons, hstep, ih, hrhs, ih y]
    cases hm : argmaxTransfer ys with
    | none =>
      by_cases hxy : x.blockNumber ≤ y.blockNumber
      · rw [if_pos hxy]
        show some y = if y.blockNumber < x.blockNumber then some x else some y
        rw [if_neg (by omega)]
      · rw [if_neg hxy]
        show some x = if y.blockNumber < x.blockNumber then some x else some y
        rw [if_pos (by omega)]
    | some b =>
      by_cases hxy : x.blockNumber ≤ y.blockNumber
      · rw [if_pos hxy]
        show (if b.blockNumber < y.blockNumber then some y else some b)
            = match (if b.blockNumber < y.blockNumber then some y else some b) with
              | none => some x
              | some c => if c.blockNumber < x.blockNumber then some x else some c
        by_cases hby : b.blockNumber < y.blockNumber
        · rw [if_pos hby]
          show some y = if y.blockNumber < x.blockNumber then some x else some y
          rw [if_neg (by omega)]
        · rw [if_neg hby]
          show some b = if b.blockNumber < x.blockNumber then some x else some b
          rw [if_neg (by omega)]
      · rw [if_neg hxy]
        show (if b.blockNumber < x.blockNumber then some x else some b)
            = match (if b.blockNumber < y.blockNumber then some y else some b) with
              | none => some x
              | some c => if c.blockNumber < x.blockNumber then some x else some c
        by_cases hby : b.blockNumber < y.blockNumber
        · rw [if_pos hby]
          show (if b.blockNumber < x.blockNumber then some x else some b)
              = if y.blockNumber < x.blockNumber then some x else some y
          rw [if_pos (show b.blockNumber < x.blockNumber by omega),
            if_pos (show y.blockNumber < x.blockNumber by omega)]
        · rw [if_neg hby]

theorem sortByBlock_getLast?_eq_argmax (l : List NftTransfer) :
    (sortByBlock l).getLast? = argmaxTransfer l := by
  induction l with
  | nil => rfl
  | cons x xs ih =>
    rw [sortByBlock, getLast?_insertByBlock x (sortByBlock xs) (sortByBlock_sorted xs), ih]
    have : argmaxTransfer (x :: xs) = xs.foldl argmaxStep (some x) := rfl
    rw [this, argmax_foldl_from_some xs x]

/-- C6 counterexample: `MerkleService.getCurrentOwnershipFromTransfers` does
not sort, so on the input ordering `[block 2 → owner 10, block 1 → owner 11]`
it maps token 1 to owner 11, the `to` of the transfer with the SMALLER block
number, refuting the claim for arbitrary input orderings (there is also no
log-index tie-break: the snapshot code never reads a log index). -/
def c6List : List NftTransfer :=
  [{ transactionHash := 0, blockNumber := 2, tokenId := 1, fromAddress := 0
     toAddress := 10, includedInMerkle := false, merkleRoot := none },
   { transactionHash := 1, blockNumber := 1, tokenId := 1, fromAddress := 10
     toAddress := 11, includedInMerkle := false, merkleRoot := none }]

theorem snapshotOwner_input_order_refuted :
    snapshotOwner c6List 1 = some 11 ∧ specSnapshotOwner c6List 1 = some 10 := by
  decide

/-- Claim C6 (amended): the sorting variant
(`NftTransferService.getCurrentOwnershipFromTransfers`, which stably sorts by
`blockNumber` before the last-wins walk) maps each tokenId to the `to`
address of the transfer with the greatest blockNumber for any input
ordering, ties broken towards the later-listed (later-inserted) transfer —
there is no log-index tie-break in the code.  The `MerkleService` variant
performs the last-wins walk without sorting, so it computes this function
only when its input is already ordered by blockNumber. -/
theorem nftSnapshotOwner_eq_greatest_block (ts : List NftTransfer) (t : Nat) :
    nftSnapshotOwner ts t = specSnapshotOwner ts t := by
  show snapshotOwner (sortByBlock ts) t = specSnapshotOwner ts t
  unfold snapshotOwner specSnapshotOwner
  rw [snapshot_foldl_eq t (sortByBlock ts) none,
    filter_sortByBlock (fun tr => tr.tokenId = t) ts,
    sortByBlock_getLast?_eq_argmax]
  cases argmaxTransfer (ts.filter (fun tr => tr.tokenId = t)) <;> rfl

/-! ## The sorted-pair Merkle tree (merkletreejs with `sortPairs: true`,
keccak256 leaves)

Hash values are abstract: `leafHash` stands for
`keccak256(solidityPack(address, uint256))` and `combineHash a b` for
`keccak256(min(a,b) ‖ max(a,b))`; both are modelled by injective, disjoint
encodings into `Nat`, which is sound for every property proved here (none
relies on collisions or on concrete digest values). -/

def leafHash (owner : Addr) (tokenId : Nat) : Nat := 2 * Nat.pair owner tokenId

/-- Sorted-pair combination: the two children are ordered ascending before
hashing, making the combine symmetric. -/
def combineHash (a b : Nat) : Nat := 2 * Nat.pair (min a b) (max a b) + 1

theorem combineHash_comm (a b : Nat) : combineHash a b = combineHash b a := by
  unfold combineHash
  rw [min_comm, max_comm]

/-- One level of the tree: hash adjacent pairs; an odd trailing node is
carried up unchanged (merkletreejs without `duplicateOdd`). -/
def buildLayer : List Nat → List Nat
  | [] => []
  | [a] => [a]
  | a :: b :: rest => combineHash a b :: buildLayer rest

theorem buildLayer_length : ∀ l : List Nat, (buildLayer l).length = (l.length + 1) / 2
  | [] => rfl
  | [_] => by simp [buildLayer]
  | _ :: _ :: rest => by
    simp only [buildLayer, List.length_cons, buildLayer_length rest]
    omega

/-- Fuel-based iteration of `buildLayer` down to the root (0 for the empty
tree, which the callers guard against).  The fuel only bounds the number of
levels; `rootOfLayer` supplies `l.length`, which always suffices since each
level at least halves the layer. -/
def rootGo : Nat → List Nat → Nat
  | _, [] => 0
  | _, [a] => a
  | 0, _ => 0
  | fuel + 1, a :: b :: rest => rootGo fuel (buildLayer (a :: b :: rest))

def rootOfLayer (l : List Nat) : Nat := rootGo l.length l

/-- The sibling emitted at one proof level for index `i` (if any). -/
def siblingAt (layer : List Nat) (i : Nat) : List Nat :=
  if i % 2 = 0 then
    match layer.get? (i + 1) with
    | some s => [s]
    | none => []
  else
    match layer.get? (i - 1) with
    | some s => [s]
    | none => []

/-- Fuel-based Merkle proof generation: at each level the sibling (if any)
is emitted and the index halves.  With sorted pairs the proof carries no
position bits. -/
def proofGo : Nat → List Nat → Nat → List Nat
  | _, [], _ => []
  | _, [_], _ => []
  | 0, _, _ => []
  | fuel + 1, a :: b :: rest, i =>
    siblingAt (a :: b :: rest) i ++ proofGo fuel (buildLayer (a :: b :: rest)) (i / 2)

def getProofAux (l : List Nat) (i : Nat) : List Nat := proofGo l.length l i

theorem rootGo_fuel : ∀ (f f' : Nat) (l : List Nat),
    l.length ≤ f → l.length ≤ f' → rootGo f l = rootGo f' l := by
  intro f
  induction f with
  | zero =>
    intro f' l h _
    have : l = [] := List.length_eq_zero.mp (Nat.le_zero.mp h)
    subst this
    cases f' <;> rfl
  | succ g ih =>
    intro f' l h h'
    match l with
    | [] => cases f' <;> rfl
    | [a] => cases f' <;> rfl
    | a :: b :: rest =>
      match f', h' with
      | g' + 1, h' =>
        show rootGo g (buildLayer (a :: b :: rest))
            = rootGo g' (buildLayer (a :: b :: rest))
        have hlen : (buildLayer (a :: b :: rest)).length ≤ g := by
          rw [buildLayer_length]
          simp only [List.length_cons] at h ⊢
          omega
        have hlen' : (buildLayer (a :: b :: rest)).length ≤ g' := by
          rw [buildLayer_length]
          simp only [List.length_cons] at h' ⊢
          omega
        rw [ih g' (buildLayer (a :: b :: rest)) hlen hlen']

theorem proofGo_fuel : ∀ (f f' : Nat) (l : List Nat) (i : Nat),
    l.length ≤ f → l.length ≤ f' → proofGo f l i = proofGo f' l i := by
  intro f
  induction f with
  | zero =>
    intro f' l i h _
    have : l = [] := List.length_eq_zero.mp (Nat.le_zero.mp h)
    subst this
    cases f' <;> rfl
  | succ g ih =>
    intro f' l i h h'
    match l with
    | [] => cases f' <;> rfl
    | [a] => cases f' <;> rfl
    | a :: b :: rest =>
      match f', h' with
      | g' + 1, h' =>
        show siblingAt (a :: b :: rest) i ++ proofGo g (buildLayer (a :: b :: rest)) (i / 2)
            = siblingAt (a :: b :: rest) i ++ proofGo g' (buildLayer (a :: b :: rest)) (i / 2)
        have hlen : (buildLayer (a :: b :: rest)).length ≤ g := by
          rw [buildLayer_length]
          simp only [List.length_cons] at h ⊢
          omega
        have hlen' : (buildLayer (a :: b :: rest)).length ≤ g' := by
          rw [buildLayer_length]
          simp only [List.length_cons] at h' ⊢
          omega
        rw [ih g' (buildLayer (a :: b :: rest)) (i / 2) hlen hlen']

theorem rootOfLayer_cons (a b : Nat) (rest : List Nat) :
    rootOfLayer (a :: b :: rest) = rootOfLayer (buildLayer (a :: b :: rest)) := by
  show rootGo (a :: b :: rest).length (a :: b :: rest)
      = rootGo (buildLayer (a :: b :: rest)).length (buildLayer (a :: b :: rest))
  have h1 : rootGo (a :: b :: rest).length (a :: b :: rest)
      = rootGo (rest.length + 1) (buildLayer (a :: b :: rest)) := rfl
  rw [h1]
  refine rootGo_fuel _ _ _ ?_ ?_ <;> rw [buildLayer_length] <;>
    simp only [List.length_cons] <;> omega

theorem getProofAux_cons (a b : Nat) (rest : List Nat) (i : Nat) :
    getProofAux (a :: b :: rest) i =
      siblingAt (a :: b :: rest) i
        ++ getProofAux (buildLayer (a :: b :: rest)) (i / 2) := by
  show proofGo (a :: b :: rest).length (a :: b :: rest) i
      = siblingAt (a :: b :: rest) i
        ++ proofGo (buildLayer (a :: b :: rest)).length (buildLayer (a :: b :: rest)) (i / 2)
  have h1 : proofGo (a :: b :: rest).length (a :: b :: rest) i
      = siblingAt (a :: b :: rest) i
        ++ proofGo (rest.length + 1) (buildLayer (a :: b :: rest)) (i / 2) := rfl
  rw [h1]
  congr 1
  refine proofGo_fuel _ _ _ _ ?_ ?_ <;> rw [buildLayer_length] <;>
    simp only [List.length_cons] <;> omega

/-- merkletreejs `verify` with `sortPairs`: fold the proof onto the leaf
with the sorted-pair combine. -/
def verifyFold (proof : List Nat) (leaf : Nat) : Nat :=
  proof.foldl combineHash leaf

def verifyProof (proof : List Nat) (leaf root : Nat) : Bool :=
  decide (verifyFold proof leaf = root)

theorem buildLayer_get? : ∀ (l : List Nat) (i : Nat),
    (buildLayer l).get? i =
      match l.get? (2 * i), l.get? (2 * i + 1) with
      | some a, some b => some (combineHash a b)
      | some a, none => some a
      | none, _ => none
  | [], i => by
    cases i <;> rfl
  | [a], 0 => rfl
  | [a], (i + 1) => by
    have h1 : [a].get? (2 * (i + 1)) = none := by
      rw [List.get?_eq_none]
      simp
      omega
    rw [h1]
    rfl
  | a :: b :: rest, 0 => rfl
  | a :: b :: rest, (i + 1) => by
    have h2 : 2 * (i + 1) = (2 * i + 1) + 1 := by omega
    rw [buildLayer, List.get?_cons_succ, buildLayer_get? rest i, h2,
      List.get?_cons_succ, List.get?_cons_succ, List.get?_cons_succ, List.get?_cons_succ]

/-- Self-verification of generated proofs: for any leaf list and any index
holding `x`, folding the proof from `x` reproduces the root. -/
theorem verifyFold_getProofAux : ∀ (l : List Nat) (i x : Nat),
    l.get? i = some x → verifyFold (getProofAux l i) x = rootOfLayer l
  | [], i, x, h => by simp at h
  | [a], i, x, h => by
    match i, h with
    | 0, h =>
      have hx : x = a := by simpa using h.symm
      subst hx
      rfl
  | a :: b :: rest, i, x, h => by
    have hlen : i < (a :: b :: rest).length := List.get?_eq_some.mp h |>.1
    rw [getProofAux_cons, rootOfLayer_cons]
    unfold siblingAt
    by_cases hpar : i % 2 = 0
    · rw [if_pos hpar]
      have h2i : 2 * (i / 2) = i := by omega
      cases hsib : (a :: b :: rest).get? (i + 1) with
      | some s =>
        have hmid : (buildLayer (a :: b :: rest)).get? (i / 2)
            = some (combineHash x s) := by
          rw [buildLayer_get?, h2i, h, hsib]
        simp only [verifyFold, List.foldl_append, List.foldl_cons, List.foldl_nil]
        exact verifyFold_getProofAux (buildLayer (a :: b :: rest)) (i / 2)
          (combineHash x s) hmid
      | none =>
        have hmid : (buildLayer (a :: b :: rest)).get? (i / 2) = some x := by
          rw [buildLayer_get?, h2i, h, hsib]
        simp only [verifyFold, List.nil_append]
        exact verifyFold_getProofAux (buildLayer (a :: b :: rest)) (i / 2) x hmid
    · rw [if_neg hpar]
      have h2i : 2 * (i / 2) = i - 1 := by omega
      have h2i1 : 2 * (i / 2) + 1 = i := by omega
      cases hsib : (a :: b :: rest).get? (i - 1) with
      | some s =>
        have hmid : (buildLayer (a :: b :: rest)).get? (i / 2)
            = some (combineHash s x) := by
          rw [buildLayer_get?, h2i1, h2i, h, hsib]
        simp only [verifyFold, List.foldl_append, List.foldl_cons, List.foldl_nil]
        rw [show List.foldl combineHash (combineHash x s)
            (getProofAux (buildLayer (a :: b :: rest)) (i / 2))
          = verifyFold (getProofAux (buildLayer (a :: b :: rest)) (i / 2))
              (combineHash x s) from rfl]
        rw [combineHash_comm x s]
        exact verifyFold_getProofAux (buildLayer (a :: b :: rest)) (i / 2)
          (combineHash s x) hmid
      | none =>
        exfalso
        have : i - 1 < (a :: b :: rest).length := by omega
        rw [List.get?_eq_none] at hsib
        omega
termination_by l _ _ _ => l.length
decreasing_by
  all_goals simp only [buildLayer_length, List.length_cons]
  all_goals omega

/-! ## `MerkleService.getMerkleProof` (C5) -/

/-- Insert a token id into an ascending list without duplicates: JavaScript
objects keep integer-like keys in ascending numeric order, so
`Object.entries(ownership)` enumerates tokens ascending. -/
def insertTokenAsc (t : Nat) : List Nat → List Nat
  | [] => [t]
  | x :: xs =>
    if x < t then x :: insertTokenAsc t xs
    else if x = t then x :: xs
    else t :: x :: xs

/-- The key set of the ownership object: each distinct `tokenId` of the
transfer list, ascending. -/
def tokensOf (ts : List NftTransfer) : List Nat :=
  ts.foldl (fun acc tr => insertTokenAsc tr.tokenId acc) []

/-- `createLeavesFromOwnership`: one leaf `keccak256(pack(owner, tokenId))`
per token of the snapshot. -/
def createLeavesFromOwnership (ts : List NftTransfer) : List Nat :=
  (tokensOf ts).filterMap (fun t => (snapshotOwner ts t).map (fun o => leafHash o t))

/-- `findOne({includedInMerkle: true, merkleRoot: Not(IsNull())},
order: blockNumber DESC)`: the transfer with a populated Merkle root of
greatest block number (first found on ties). -/
def latestRootTransfer (ts : List NftTransfer) : Option NftTransfer :=
  (ts.filter (fun tr => tr.includedInMerkle ∧ tr.merkleRoot.isSome)).foldl
    (fun acc tr =>
      match acc with
      | none => some tr
      | some b => if b.blockNumber < tr.blockNumber then some tr else some b) none

structure MerkleProofResult where
  proof : List Nat
  root : Nat
  verified : Bool
deriving DecidableEq, Repr

/-- The transfers reconstructing the historical snapshot for `getMerkleProof`:
every stored transfer with `blockNumber ≤` the latest root-bearing
transfer's block, ordered by `blockNumber ASC`. -/
def reconstructionTransfers (ts : List NftTransfer) (latest : NftTransfer) :
    List NftTransfer :=
  sortByBlock (ts.filter (fun tr => tr.blockNumber ≤ latest.blockNumber))

/-- Body of `MerkleService.getMerkleProof` once the latest root-bearing
transfer is found: rebuild leaves, require a non-empty tree and
`snapshot[tokenId] == owner`, then emit the proof for the target leaf and
self-verify it against the reconstructed root. -/
def proofForLeaf (leaves : List Nat) (targetLeaf : Nat) : List Nat :=
  match firstIdx (fun x => decide (x = targetLeaf)) leaves with
  | some i => getProofAux leaves i
  | none => []

def getMerkleProofWithLatest (ts : List NftTransfer) (owner : Addr) (tokenId : Nat)
    (latest : NftTransfer) : Option MerkleProofResult :=
  let allTransfers := reconstructionTransfers ts latest
  let leaves := createLeavesFromOwnership allTransfers
  if leaves.isEmpty then none
  else
    match snapshotOwner allTransfers tokenId with
    | none => none
    | some actualOwner =>
      if actualOwner ≠ owner then none
      else if verifyProof (proofForLeaf leaves (leafHash owner tokenId))
          (leafHash owner tokenId) (rootOfLayer leaves) then
        some { proof := proofForLeaf leaves (leafHash owner tokenId)
               root := rootOfLayer leaves
               verified := true }
      else none

/-- `MerkleService.getMerkleProof`: find the latest transfer with a stored
root, reconstruct the tree from the transfers up to its block, and answer
with a self-verified proof iff the reconstructed snapshot maps `tokenId` to
`owner`; the returned root is the reconstructed one. -/
def getMerkleProof (ts : List NftTransfer) (owner : Addr) (tokenId : Nat) :
    Option MerkleProofResult :=
  match latestRootTransfer ts with
  | none => none
  | some latest => getMerkleProofWithLatest ts owner tokenId latest

theorem mem_insertTokenAsc (a t : Nat) (l : List Nat) :
    a ∈ insertTokenAsc t l ↔ a = t ∨ a ∈ l := by
  induction l with
  | nil => simp [insertTokenAsc]
  | cons x xs ih =>
    by_cases h1 : x < t
    · rw [insertTokenAsc, if_pos h1]
      simp only [List.mem_cons, ih]
      tauto
    · rw [insertTokenAsc, if_neg h1]
      by_cases h2 : x = t
      · rw [if_pos h2]
        subst h2
        simp only [List.mem_cons]
        tauto
      · rw [if_neg h2]
        simp only [List.mem_cons]

theorem mem_tokensOf_aux (t : Nat) (ts : List NftTransfer) :
    ∀ acc : List Nat,
      t ∈ ts.foldl (fun acc tr => insertTokenAsc tr.tokenId acc) acc
        ↔ (∃ tr ∈ ts, tr.tokenId = t) ∨ t ∈ acc := by
  induction ts with
  | nil =>
    intro acc
    simp
  | cons x xs ih =>
    intro acc
    rw [List.foldl_cons, ih (insertTokenAsc x.tokenId acc)]
    rw [mem_insertTokenAsc]
    constructor
    · rintro (⟨tr, htr, rfl⟩ | h | h)
      · exact Or.inl ⟨tr, by simp [htr], rfl⟩
      · exact Or.inl ⟨x, by simp, h.symm⟩
      · exact Or.inr h
    · rintro (⟨tr, htr, rfl⟩ | h)
      · rcases List.mem_cons.mp htr with rfl | hmem
        · exact Or.inr (Or.inl rfl)
        · exact Or.inl ⟨tr, hmem, rfl⟩
      · exact Or.inr (Or.inr h)

theorem mem_tokensOf (t : Nat) (ts : List NftTransfer) :
    t ∈ tokensOf ts ↔ ∃ tr ∈ ts, tr.tokenId = t := by
  rw [tokensOf, mem_tokensOf_aux]
  simp

theorem snapshotOwner_some_exists (ts : List NftTransfer) (t : Nat) (o : Addr)
    (h : snapshotOwner ts t = some o) : ∃ tr ∈ ts, tr.tokenId = t := by
  rw [snapshotOwner, snapshot_foldl_eq t ts none] at h
  cases hlast : (ts.filter (fun tr => tr.tokenId = t)).getLast? with
  | none =>
    rw [hlast] at h
    exact Option.noConfusion h
  | some tr =>
    have htr := List.mem_filter.mp (getLast?_mem _ _ hlast)
    exact ⟨tr, htr.1, by simpa using htr.2⟩

theorem leafHash_mem_leaves (ts : List NftTransfer) (t : Nat) (o : Addr)
    (h : snapshotOwner ts t = some o) :
    leafHash o t ∈ createLeavesFromOwnership ts := by
  refine List.mem_filterMap.mpr ⟨t, (mem_tokensOf t ts).mpr ?_, ?_⟩
  · exact snapshotOwner_some_exists ts t o h
  · rw [h]
    rfl

theorem getMerkleProofWithLatest_of_snapshot_none (ts : List NftTransfer)
    (owner : Addr) (tokenId : Nat) (latest : NftTransfer)
    (h : snapshotOwner (reconstructionTransfers ts latest) tokenId = none) :
    getMerkleProofWithLatest ts owner tokenId latest = none := by
  unfold getMerkleProofWithLatest
  by_cases hemp : (createLeavesFromOwnership (reconstructionTransfers ts latest)).isEmpty
  · rw [if_pos hemp]
  · rw [if_neg hemp, h]

theorem getMerkleProofWithLatest_of_mismatch (ts : List NftTransfer)
    (owner : Addr) (tokenId : Nat) (latest : NftTransfer) (actual : Addr)
    (h : snapshotOwner (reconstructionTransfers ts latest) tokenId = some actual)
    (hne : actual ≠ owner) :
    getMerkleProofWithLatest ts owner tokenId latest = none := by
  unfold getMerkleProofWithLatest
  by_cases hemp : (createLeavesFromOwnership (reconstructionTransfers ts latest)).isEmpty
  · rw [if_pos hemp]
  · rw [if_neg hemp, h]
    show (if actual ≠ owner then none else _) = none
    rw [if_pos hne]

theorem getMerkleProofWithLatest_of_match (ts : List NftTransfer)
    (owner : Addr) (tokenId : Nat) (latest : NftTransfer)
    (h : snapshotOwner (reconstructionTransfers ts latest) tokenId = some owner) :
    ∃ i, firstIdx (fun x => decide (x = leafHash owner tokenId))
          (createLeavesFromOwnership (reconstructionTransfers ts latest)) = some i
      ∧ getMerkleProofWithLatest ts owner tokenId latest
        = some
          { proof := getProofAux
              (createLeavesFromOwnership (reconstructionTransfers ts latest)) i
            root := rootOfLayer
              (createLeavesFromOwnership (reconstructionTransfers ts latest))
            verified := true } := by
  set L := createLeavesFromOwnership (reconstructionTransfers ts latest) with hL
  have hmem : leafHash owner tokenId ∈ L :=
    leafHash_mem_leaves (reconstructionTransfers ts latest) tokenId owner h
  have hemp : L.isEmpty = false := by
    cases hLc : L with
    | nil =>
      rw [hLc] at hmem
      cases hmem
    | cons a l => rfl
  obtain ⟨i, hidx⟩ : ∃ i,
      firstIdx (fun x => decide (x = leafHash owner tokenId)) L = some i := by
    cases hfi : firstIdx (fun x => decide (x = leafHash owner tokenId)) L with
    | none =>
      exfalso
      have := (firstIdx_eq_none_iff _ _).mp hfi (leafHash owner tokenId) hmem
      simp at this
    | some i => exact ⟨i, rfl⟩
  obtain ⟨hi, hp⟩ := firstIdx_eq_some _ _ _ hidx
  have hget : L.get? i = some (leafHash owner tokenId) := by
    rw [List.get?_eq_get hi]
    simpa using hp
  have hfold : verifyFold (getProofAux L i) (leafHash owner tokenId) = rootOfLayer L :=
    verifyFold_getProofAux L i (leafHash owner tokenId) hget
  have hpf : proofForLeaf L (leafHash owner tokenId) = getProofAux L i := by
    rw [proofForLeaf, hidx]
  refine ⟨i, hidx, ?_⟩
  unfold getMerkleProofWithLatest
  dsimp only
  rw [← hL, hemp, h]
  show (if false = true then none
    else
      if owner ≠ owner then none
      else if verifyProof (proofForLeaf L (leafHash owner tokenId))
          (leafHash owner tokenId) (rootOfLayer L) then
        some ({ proof := proofForLeaf L (leafHash owner tokenId)
                root := rootOfLayer L
                verified := true } : MerkleProofResult)
      else none) = _
  rw [if_neg (by simp), if_neg (show ¬ owner ≠ owner by simp), hpf,
    if_pos (by rw [verifyProof, hfold]; exact decide_eq_true rfl)]

/-- Claim C5: `getMerkleProof(owner, tokenId)` answers `some` iff a transfer
with a populated Merkle root exists and the snapshot reconstructed from the
transfers with `blockNumber ≤` that transfer's block maps `tokenId` to
`owner`; every answer carries `verified = true`, a proof that self-verifies
against the returned root, and the reconstructed root itself; in every
other case — no root stored, or owner mismatch — the answer is `none`.
The claim's self-verification condition is provably always satisfied when
the snapshot matches, so it rules out no additional case. -/
theorem getMerkleProof_some_iff (ts : List NftTransfer) (owner : Addr) (tokenId : Nat) :
    ((getMerkleProof ts owner tokenId).isSome ↔
      ∃ latest, latestRootTransfer ts = some latest ∧
        snapshotOwner (reconstructionTransfers ts latest) tokenId = some owner)
    ∧ (∀ r, getMerkleProof ts owner tokenId = some r →
        r.verified = true
          ∧ verifyProof r.proof (leafHash owner tokenId) r.root = true
          ∧ ∃ latest, latestRootTransfer ts = some latest
              ∧ r.root = rootOfLayer
                  (createLeavesFromOwnership (reconstructionTransfers ts latest))) := by
  rcases hlat : latestRootTransfer ts with _ | latest
  · constructor
    · rw [getMerkleProof, hlat]
      simp
    · intro r hr
      rw [getMerkleProof, hlat] at hr
      exact Option.noConfusion hr
  · have hred : getMerkleProof ts owner tokenId
        = getMerkleProofWithLatest ts owner tokenId latest := by
      rw [getMerkleProof, hlat]
    rcases hsnap : snapshotOwner (reconstructionTransfers ts latest) tokenId
        with _ | actual
    · have hnone := getMerkleProofWithLatest_of_snapshot_none ts owner tokenId latest hsnap
      constructor
      · rw [hred, hnone]
        constructor
        · intro hs
          simp at hs
        · rintro ⟨latest', hlat', hsnap'⟩
          injection hlat' with hlat''
          subst hlat''
          rw [hsnap] at hsnap'
          exact Option.noConfusion hsnap'
      · intro r hr
        rw [hred, hnone] at hr
        exact Option.noConfusion hr
    · by_cases hown : actual = owner
      · subst hown
        obtain ⟨i, hidx, hsome⟩ :=
          getMerkleProofWithLatest_of_match ts actual tokenId latest hsnap
        constructor
        · rw [hred, hsome]
          constructor
          · intro _
            exact ⟨latest, rfl, hsnap⟩
          · intro _
            rfl
        · intro r hr
          rw [hred, hsome] at hr
          cases hr
          refine ⟨rfl, ?_, latest, rfl, rfl⟩
          have hget : (createLeavesFromOwnership
              (reconstructionTransfers ts latest)).get? i
              = some (leafHash actual tokenId) := by
            obtain ⟨hi, hp⟩ := firstIdx_eq_some _ _ _ hidx
            rw [List.get?_eq_get hi]
            simpa using hp
          have hfold := verifyFold_getProofAux _ i (leafHash actual tokenId) hget
          rw [verifyProof, hfold]
          exact decide_eq_true rfl
      · have hnone :=
          getMerkleProofWithLatest_of_mismatch ts owner tokenId latest actual hsnap hown
        constructor
        · rw [hred, hnone]
          constructor
          · intro hs
            simp at hs
          · rintro ⟨latest', hlat', hsnap'⟩
            injection hlat' with hlat''
            subst hlat''
            rw [hsnap] at hsnap'
            exact absurd (Option.some.inj hsnap') hown
        · intro r hr
          rw [hred, hnone] at hr
          exact Option.noConfusion hr

/-- Witness store for `getMerkleProof_some_iff`: one transfer of token 1 to
owner 10 at block 1, already committed to a Merkle root. -/
def c5Row : NftTransfer :=
  { transactionHash := 0, blockNumber := 1, tokenId := 1, fromAddress := 0
    toAddress := 10, includedInMerkle := true, merkleRoot := some 99 }

def c5Store : List NftTransfer := [c5Row]

theorem getMerkleProof_some_iff_witness :
    (getMerkleProof c5Store 10 1).isSome = true
      ∧ ∀ r, getMerkleProof c5Store 10 1 = some r → r.verified = true := by
  have h := getMerkleProof_some_iff c5Store 10 1
  exact ⟨h.1.mpr ⟨c5Row, by decide, by decide⟩, fun r hr => (h.2 r hr).1⟩

/-! ## C3: NFT ownership verification with deposit-history fallback -/

/-- Helper: every `some` answer of `getMerkleProof` carries `verified = true`. -/
theorem getMerkleProof_verified_of_some (ts : List NftTransfer) (owner : Addr)
    (tokenId : Nat) (r : MerkleProofResult)
    (h : getMerkleProof ts owner tokenId = some r) : r.verified = true := by
  rcases hlat : latestRootTransfer ts with _ | latest
  · rw [getMerkleProof, hlat] at h
    exact Option.noConfusion h
  · have hred : getMerkleProof ts owner tokenId
        = getMerkleProofWithLatest ts owner tokenId latest := by
      rw [getMerkleProof, hlat]
    rw [hred] at h
    rcases hsnap : snapshotOwner (reconstructionTransfers ts latest) tokenId
        with _ | actual
    · rw [getMerkleProofWithLatest_of_snapshot_none ts owner tokenId latest hsnap] at h
      exact Option.noConfusion h
    · by_cases hown : actual = owner
      · subst hown
        obtain ⟨i, -, hsome⟩ :=
          getMerkleProofWithLatest_of_match ts actual tokenId latest hsnap
        rw [hsome] at h
        cases h
        rfl
      · rw [getMerkleProofWithLatest_of_mismatch ts owner tokenId latest actual
          hsnap hown] at h
        exact Option.noConfusion h

/-- `MerkleService.verifyNftOwnership`: true iff `getMerkleProof` succeeds
(its `verified` flag, false on `null`). -/
def merkleVerifyNftOwnership (ts : List NftTransfer) (owner : Addr) (tokenId : Nat) :
    Bool :=
  match getMerkleProof ts owner tokenId with
  | some r => r.verified
  | none => false

/-- `vault_events.type` values. -/
inductive VaultEventType where
  | deposit
  | withdrawRequest
  | withdraw
deriving DecidableEq, Repr

/-- A `vault_events` row, restricted to the fields the ownership fallback
and the LTV calculation read. -/
structure VaultEventRecord where
  sender : Addr
  tokenId : Nat
  eventType : VaultEventType
deriving DecidableEq, Repr

/-- `RelayerService.verifyNftOwnership`: Merkle verification first; when it
returns false — for any reason — fall back to "has the sender ever
deposited against this tokenId". -/
def relayerVerifyNftOwnership (ts : List NftTransfer) (ves : List VaultEventRecord)
    (owner : Addr) (tokenId : Nat) : Bool :=
  if merkleVerifyNftOwnership ts owner tokenId then true
  else
    !(ves.filter (fun v => v.sender = owner ∧ v.tokenId = tokenId
        ∧ v.eventType = VaultEventType.deposit)).isEmpty

/-- C3 counterexample: a Merkle root is present and token 1's snapshot owner
is 10, yet `verifyNftOwnership(11, 1)` returns true because owner 11 has a
prior deposit row — the fallback is consulted on owner mismatch, not only
when no root exists, and `getProof` would fail (`none`). -/
def c3Transfers : List NftTransfer :=
  [{ transactionHash := 0, blockNumber := 1, tokenId := 1, fromAddress := 0
     toAddress := 10, includedInMerkle := true, merkleRoot := some 99 }]

def c3Deposits : List VaultEventRecord :=
  [{ sender := 11, tokenId := 1, eventType := VaultEventType.deposit }]

theorem verifyNftOwnership_fallback_refuted :
    relayerVerifyNftOwnership c3Transfers c3Deposits 11 1 = true
      ∧ getMerkleProof c3Transfers 11 1 = none
      ∧ latestRootTransfer c3Transfers ≠ none := by
  decide

/-- Claim C3 (amended): `RelayerService.verifyNftOwnership(owner, tokenId)`
returns true iff `getMerkleProof` succeeds OR the owner has at least one
prior deposit vault event for that tokenId; the deposit-history fallback is
consulted whenever Merkle verification returns false, for any reason —
including when a Merkle root exists but the owner does not match the
snapshot.  (`MerkleService.verifyNftOwnership` alone does return true iff
`getProof` succeeds: second conjunct.) -/
theorem verifyNftOwnership_eq_merkle_or_deposit (ts : List NftTransfer)
    (ves : List VaultEventRecord) (owner : Addr) (tokenId : Nat) :
    (relayerVerifyNftOwnership ts ves owner tokenId
      = ((getMerkleProof ts owner tokenId).isSome
          || !(ves.filter (fun v => v.sender = owner ∧ v.tokenId = tokenId
              ∧ v.eventType = VaultEventType.deposit)).isEmpty))
    ∧ merkleVerifyNftOwnership ts owner tokenId
      = (getMerkleProof ts owner tokenId).isSome := by
  have hm : merkleVerifyNftOwnership ts owner tokenId
      = (getMerkleProof ts owner tokenId).isSome := by
    unfold merkleVerifyNftOwnership
    cases hg : getMerkleProof ts owner tokenId with
    | none => rfl
    | some r =>
      show r.verified = (some r).isSome
      rw [getMerkleProof_verified_of_some ts owner tokenId r hg]
      rfl
  refine ⟨?_, hm⟩
  unfold relayerVerifyNftOwnership
  rw [hm]
  cases hg : (getMerkleProof ts owner tokenId).isSome with
  | false => simp
  | true => simp

/-! ## C2: `RelayerService.validateAndProcessRequest` -/

/-- The fields of a COLLATERAL_REQUEST relayer event the validator reads. -/
structure CollateralRequest where
  requestId : Nat
  tokenId : Nat
  sender : Addr
  deadline : Nat
deriving DecidableEq, Repr

/-- The environment of one validation run: the wall clock, the user lookup
result, the stores feeding NFT verification, and the three USD quantities
whose computation crosses the oracle / RPC boundary
(`calculateAssetValueAndLTV`, `calculateTotalUtilization`, `getAmountInUsd`). -/
structure CollateralEnv where
  now : Nat
  userExists : Bool
  transfers : List NftTransfer
  vaultEvents : List VaultEventRecord
  totalLTV : USD
  totalUtilization : USD
  amountInUsd : USD
deriving Repr

/-- What `validateAndProcessRequest`/`processRequestOnChain` decide: the
`approval` flag passed to the on-chain `processRequest`, the error reason
recorded on rejection, and the stored event status (2 approved,
3 rejected). -/
structure ProcessOutcome where
  approval : Bool
  errorReason : Option String
  status : Nat
deriving DecidableEq, Repr

/-- `RelayerService.validateAndProcessRequest` followed by
`processRequestOnChain`: reject expired requests, unknown users, failed NFT
ownership, and LTV breaches (each with a reason); otherwise approve. -/
def validateAndProcessRequest (env : CollateralEnv) (req : CollateralRequest) :
    ProcessOutcome :=
  if req.deadline < env.now then
    { approval := false, errorReason := some "Request expired", status := 3 }
  else if !env.userExists then
    { approval := false, errorReason := some "User not found", status := 3 }
  else if !(relayerVerifyNftOwnership env.transfers env.vaultEvents
      req.sender req.tokenId) then
    { approval := false, errorReason := some "NFT ownership verification failed"
      status := 3 }
  else if !(decide (env.totalUtilization + env.amountInUsd ≤ env.totalLTV)) then
    { approval := false, errorReason := some "Exceeds LTV limits", status := 3 }
  else
    { approval := true, errorReason := none, status := 2 }

/-- Claim C2: with an existing user, a COLLATERAL_REQUEST is approved
(`processRequest` called with true, stored status 2) iff
`totalUtilization + amountUsd ≤ totalLTV`, NFT ownership verifies for
`(sender, tokenId)`, and the deadline has not passed (`now ≤ deadline`, the
code's non-expiry check); in every other case `processRequest` is called
with false together with an error reason and the stored status is 3. -/
theorem validateAndProcessRequest_approved_iff (env : CollateralEnv)
    (req : CollateralRequest) (huser : env.userExists = true) :
    ((validateAndProcessRequest env req).approval = true ↔
      (env.now ≤ req.deadline
        ∧ relayerVerifyNftOwnership env.transfers env.vaultEvents
            req.sender req.tokenId = true
        ∧ env.totalUtilization + env.amountInUsd ≤ env.totalLTV))
    ∧ ((validateAndProcessRequest env req).approval = false →
        (validateAndProcessRequest env req).errorReason.isSome = true
          ∧ (validateAndProcessRequest env req).status = 3)
    ∧ ((validateAndProcessRequest env req).approval = true →
        (validateAndProcessRequest env req).errorReason = none
          ∧ (validateAndProcessRequest env req).status = 2) := by
  by_cases h1 : req.deadline < env.now
  · have hout : validateAndProcessRequest env req
        = { approval := false, errorReason := some "Request expired", status := 3 } := by
      unfold validateAndProcessRequest
      rw [if_pos h1]
    rw [hout]
    refine ⟨⟨fun h => Bool.noConfusion h, ?_⟩, fun _ => ⟨rfl, rfl⟩,
      fun h => Bool.noConfusion h⟩
    rintro ⟨hd, -, -⟩
    omega
  · by_cases h2 : relayerVerifyNftOwnership env.transfers env.vaultEvents
        req.sender req.tokenId = true
    · by_cases h3 : env.totalUtilization + env.amountInUsd ≤ env.totalLTV
      · have hout : validateAndProcessRequest env req
            = { approval := true, errorReason := none, status := 2 } := by
          unfold validateAndProcessRequest
          rw [if_neg h1, huser, h2, decide_eq_true h3]
          rfl
        rw [hout]
        exact ⟨⟨fun _ => ⟨by omega, h2, h3⟩, fun _ => rfl⟩,
          fun h => Bool.noConfusion h, fun _ => ⟨rfl, rfl⟩⟩
      · have hout : validateAndProcessRequest env req
            = { approval := false, errorReason := some "Exceeds LTV limits"
                status := 3 } := by
          unfold validateAndProcessRequest
          rw [if_neg h1, huser, h2, decide_eq_false h3]
          rfl
        rw [hout]
        refine ⟨⟨fun h => Bool.noConfusion h, ?_⟩, fun _ => ⟨rfl, rfl⟩,
          fun h => Bool.noConfusion h⟩
        rintro ⟨-, -, h⟩
        exact absurd h h3
    · have h2' : relayerVerifyNftOwnership env.transfers env.vaultEvents
          req.sender req.tokenId = false := by
        rw [Bool.not_eq_true] at h2
        exact h2
      have hout : validateAndProcessRequest env req
          = { approval := false
              errorReason := some "NFT ownership verification failed"
              status := 3 } := by
        unfold validateAndProcessRequest
        rw [if_neg h1, huser, h2']
        rfl
      rw [hout]
      refine ⟨⟨fun h => Bool.noConfusion h, ?_⟩, fun _ => ⟨rfl, rfl⟩,
        fun h => Bool.noConfusion h⟩
      rintro ⟨-, h, -⟩
      rw [h2'] at h
      exact Bool.noConfusion h

/-- Witness for `validateAndProcessRequest_approved_iff`: a request within
deadline, for the Merkle-verified owner of token 1, inside the LTV
headroom, is approved with status 2. -/
def c2Env : CollateralEnv :=
  { now := 100, userExists := true, transfers := c5Store, vaultEvents := []
    totalLTV := 100, totalUtilization := 50, amountInUsd := 30 }

def c2Req : CollateralRequest :=
  { requestId := 7, tokenId := 1, sender := 10, deadline := 200 }

theorem validateAndProcessRequest_approved_iff_witness :
    (validateAndProcessRequest c2Env c2Req).approval = true
      ∧ (validateAndProcessRequest c2Env c2Req).status = 2 := by
  have h := validateAndProcessRequest_approved_iff c2Env c2Req (by decide)
  have happ : (validateAndProcessRequest c2Env c2Req).approval = true :=
    h.1.mpr ⟨by decide, by decide, by decide⟩
  exact ⟨happ, (h.2.2 happ).2⟩

/-! ## C4: `BlockchainEventsProcessor.processReceiptFromCache` -/

/-- A topic filter: topic0 hash, optionally scoped to a contract address. -/
structure TopicFilter where
  hash : Nat
  contractAddress : Option Addr
deriving DecidableEq, Repr

structure EvmLog where
  address : Addr
  topics : List Nat
deriving DecidableEq, Repr

structure Receipt where
  txHash : Nat
  logs : List EvmLog
deriving DecidableEq, Repr

/-- The fields of `FilteredTransaction` the claim is about: the receipt's
hash, the matched topic0 set (`topics` in the source) and the filtered
logs. -/
structure FilteredTransaction where
  hash : Nat
  matchedTopics : List Nat
  logs : List EvmLog
deriving DecidableEq, Repr

/-- The bit positions a topic sets in the 2048-bit Bloom filter.  The
source hashes the lowercased hex string with 3 seeded string hashes; any
fixed deterministic choice gives the same no-false-negative behaviour, so
the positions are modelled by three digit slices of the abstract topic. -/
def bloomPositions (t : Nat) : List Nat :=
  [t % 2048, (t / 2048) % 2048, (t / 4194304) % 2048]

/-- The set bits after `updateTopicBloomFilter` added every filter hash. -/
def bloomBitsOf (hashes : List Nat) : List Nat :=
  (hashes.map bloomPositions).join

/-- `BloomFilter.mightContain`. -/
def bloomMightContain (bits : List Nat) (t : Nat) : Bool :=
  (bloomPositions t).all (fun p => decide (p ∈ bits))

/-- The per-log matching test of `processReceiptFromCache`: non-empty
topics, Bloom pre-check, then exact membership of topic0 in the filter hash
set.  The filters' contract addresses play no part. -/
def codeLogMatches (bits : List Nat) (topicHashSet : List Nat) (log : EvmLog) : Bool :=
  match log.topics with
  | [] => false
  | t0 :: _ => bloomMightContain bits t0 && decide (t0 ∈ topicHashSet)

/-- `BlockchainEventsProcessor.processReceiptFromCache`: collect the
distinct matched topic0s in first-seen order (the `matchingTopics` Set) and
the logs whose topic0 is in the exact hash set; `null` when the receipt has
no logs or nothing matched. -/
def processReceiptFromCache (filters : List TopicFilter) (r : Receipt) :
    Option FilteredTransaction :=
  let topicHashSet := filters.map (fun f => f.hash)
  let bits := bloomBitsOf topicHashSet
  if r.logs.isEmpty then none
  else
    let matchingTopics := r.logs.foldl
      (fun acc log =>
        match log.topics with
        | [] => acc
        | t0 :: _ =>
          if bloomMightContain bits t0 && decide (t0 ∈ topicHashSet) then
            if t0 ∈ acc then acc else acc ++ [t0]
          else acc) []
    if matchingTopics.isEmpty then none
    else
      some { hash := r.txHash
             matchedTopics := matchingTopics
             logs := r.logs.filter (fun log =>
               match log.topics with
               | [] => false
               | t0 :: _ => decide (t0 ∈ topicHashSet)) }

/-- The claim's matching rule, following the spec's words: topic0 in the
exact set AND (the matching filter has no contract constraint OR the log's
address equals the filter's contract). -/
def specLogMatches (filters : List TopicFilter) (log : EvmLog) : Bool :=
  match log.topics with
  | [] => false
  | t0 :: _ =>
    filters.any (fun f =>
      decide (f.hash = t0) &&
        match f.contractAddress with
        | none => true
        | some c => decide (c = log.address))

theorem bloomMightContain_of_mem (hashes : List Nat) (t : Nat) (h : t ∈ hashes) :
    bloomMightContain (bloomBitsOf hashes) t = true := by
  unfold bloomMightContain
  rw [List.all_eq_true]
  intro p hp
  rw [decide_eq_true_eq]
  exact List.mem_join.mpr ⟨bloomPositions t, List.mem_map_of_mem _ h, hp⟩

theorem codeLogMatches_iff (filters : List TopicFilter) (log : EvmLog) :
    codeLogMatches (bloomBitsOf (filters.map (fun f => f.hash)))
        (filters.map (fun f => f.hash)) log = true
      ↔ ∃ t0, log.topics.head? = some t0 ∧ t0 ∈ filters.map (fun f => f.hash) := by
  cases hto : log.topics with
  | nil =>
    unfold codeLogMatches
    rw [hto]
    simp
  | cons t0 rest =>
    unfold codeLogMatches
    rw [hto]
    constructor
    · intro h
      rw [Bool.and_eq_true, decide_eq_true_eq] at h
      exact ⟨t0, rfl, h.2⟩
    · rintro ⟨t0', ht0', hmem⟩
      rw [List.head?_cons] at ht0'
      cases ht0'
      rw [Bool.and_eq_true, decide_eq_true_eq]
      exact ⟨bloomMightContain_of_mem _ _ hmem, hmem⟩

theorem mem_matchingTopics_fold (bits : List Nat) (topicHashSet : List Nat)
    (logs : List EvmLog) :
    ∀ (acc : List Nat) (t : Nat),
      t ∈ logs.foldl
        (fun acc log =>
          match log.topics with
          | [] => acc
          | t0 :: _ =>
            if bloomMightContain bits t0 && decide (t0 ∈ topicHashSet) then
              if t0 ∈ acc then acc else acc ++ [t0]
            else acc) acc
      ↔ t ∈ acc ∨ ∃ log ∈ logs, log.topics.head? = some t
          ∧ (bloomMightContain bits t && decide (t ∈ topicHashSet)) = true := by
  induction logs with
  | nil =>
    intro acc t
    simp
  | cons log rest ih =>
    intro acc t
    rw [List.foldl_cons]
    cases hto : log.topics with
    | nil =>
      rw [ih acc t]
      constructor
      · rintro (h | ⟨l, hl, h⟩)
        · exact Or.inl h
        · exact Or.inr ⟨l, by simp [hl], h⟩
      · rintro (h | ⟨l, hl, hh, hc⟩)
        · exact Or.inl h
        · rcases List.mem_cons.mp hl with rfl | hl'
          · rw [hto] at hh
            exact Option.noConfusion hh
          · exact Or.inr ⟨l, hl', hh, hc⟩
    | cons t0 ts =>
      have hstep : (match t0 :: ts with
          | [] => acc
          | t0 :: _ =>
            if bloomMightContain bits t0 && decide (t0 ∈ topicHashSet) then
              if t0 ∈ acc then acc else acc ++ [t0]
            else acc) =
          if bloomMightContain bits t0 && decide (t0 ∈ topicHashSet) then
            if t0 ∈ acc then acc else acc ++ [t0]
          else acc := rfl
      rw [hstep]
      by_cases hcond : (bloomMightContain bits t0 && decide (t0 ∈ topicHashSet)) = true
      · rw [if_pos hcond]
        by_cases hacc : t0 ∈ acc
        · rw [if_pos hacc, ih acc t]
          constructor
          · rintro (h | ⟨l, hl, h⟩)
            · exact Or.inl h
            · exact Or.inr ⟨l, by simp [hl], h⟩
          · rintro (h | ⟨l, hl, hh, hc⟩)
            · exact Or.inl h
            · rcases List.mem_cons.mp hl with rfl | hl'
              · rw [hto] at hh
                rw [List.head?_cons] at hh
                cases hh
                exact Or.inl hacc
              · exact Or.inr ⟨l, hl', hh, hc⟩
        · rw [if_neg hacc, ih (acc ++ [t0]) t]
          constructor
          · rintro (h | ⟨l, hl, h⟩)
            · rcases List.mem_append.mp h with h' | h'
              · exact Or.inl h'
              · have : t = t0 := by simpa using h'
                subst this
                exact Or.inr ⟨log, by simp, by rw [hto]; rfl, hcond⟩
            · exact Or.inr ⟨l, by simp [hl], h⟩
          · rintro (h | ⟨l, hl, hh, hc⟩)
            · exact Or.inl (List.mem_append.mpr (Or.inl h))
            · rcases List.mem_cons.mp hl with rfl | hl'
              · rw [hto, List.head?_cons] at hh
                cases hh
                exact Or.inl (List.mem_append.mpr (Or.inr (by simp)))
              · exact Or.inr ⟨l, hl', hh, hc⟩
      · rw [if_neg hcond, ih acc t]
        constructor
        · rintro (h | ⟨l, hl, h⟩)
          · exact Or.inl h
          · exact Or.inr ⟨l, by simp [hl], h⟩
        · rintro (h | ⟨l, hl, hh, hc⟩)
          · exact Or.inl h
          · rcases List.mem_cons.mp hl with rfl | hl'
            · rw [hto, List.head?_cons] at hh
              cases hh
              exact absurd hc hcond
            · exact Or.inr ⟨l, hl', hh, hc⟩

/-- C4 counterexample: the only filter scopes topic 5 to contract 100, but
the log emitted by address 200 with topic0 = 5 is still matched: the
receipt yields a `FilteredTransaction` whose `matchedTopics` contains 5 and
whose logs contain the foreign-address log, while the claim's matching rule
rejects it. -/
def c4Filters : List TopicFilter := [{ hash := 5, contractAddress := some 100 }]

def c4Log : EvmLog := { address := 200, topics := [5] }

def c4Receipt : Receipt := { txHash := 7, logs := [c4Log] }

theorem processReceiptFromCache_contract_scope_refuted :
    processReceiptFromCache c4Filters c4Receipt
        = some { hash := 7, matchedTopics := [5], logs := [c4Log] }
      ∧ specLogMatches c4Filters c4Log = false := by
  decide

/-- Claim C4 (amended): a receipt log is matched, contributing its topic0 to
`matchedTopics`, iff its topic list is non-empty and topic0 is in the exact
set of filter hashes — the Bloom pre-check never rejects a hash in the set,
and a filter's contract constraint is never consulted during log matching
(it only scopes the transaction-level pre-filter); in particular a log
whose topic0 has a contract-constrained filter but which is emitted by a
different address IS matched.  The receipt yields `some` iff at least one
log matches. -/
theorem processReceiptFromCache_matches_topic_only (filters : List TopicFilter)
    (r : Receipt) :
    (∀ log : EvmLog,
      codeLogMatches (bloomBitsOf (filters.map (fun f => f.hash)))
          (filters.map (fun f => f.hash)) log = true
        ↔ ∃ t0, log.topics.head? = some t0 ∧ t0 ∈ filters.map (fun f => f.hash))
    ∧ ((processReceiptFromCache filters r).isSome = true ↔
        ∃ log ∈ r.logs,
          codeLogMatches (bloomBitsOf (filters.map (fun f => f.hash)))
            (filters.map (fun f => f.hash)) log = true)
    ∧ (∀ ft, processReceiptFromCache filters r = some ft →
        ∀ t, t ∈ ft.matchedTopics ↔
          ∃ log ∈ r.logs, log.topics.head? = some t
            ∧ t ∈ filters.map (fun f => f.hash)) := by
  refine ⟨codeLogMatches_iff filters, ?_, ?_⟩
  · unfold processReceiptFromCache
    by_cases hemp : r.logs.isEmpty
    · rw [if_pos hemp]
      have : r.logs = [] := List.isEmpty_iff.mp hemp
      rw [this]
      simp
    · rw [if_neg hemp]
      by_cases hm : (r.logs.foldl
          (fun acc log =>
            match log.topics with
            | [] => acc
            | t0 :: _ =>
              if bloomMightContain (bloomBitsOf (filters.map (fun f => f.hash))) t0
                  && decide (t0 ∈ filters.map (fun f => f.hash)) then
                if t0 ∈ acc then acc else acc ++ [t0]
              else acc) []).isEmpty
      · rw [if_pos hm]
        rw [List.isEmpty_iff] at hm
        constructor
        · intro h
          simp at h
        · rintro ⟨log, hlog, hmatch⟩
          exfalso
          cases hto : log.topics with
          | nil =>
            unfold codeLogMatches at hmatch
            rw [hto] at hmatch
            exact Bool.noConfusion hmatch
          | cons t0 ts =>
            unfold codeLogMatches at hmatch
            rw [hto] at hmatch
            have : t0 ∈ r.logs.foldl
                (fun acc log =>
                  match log.topics with
                  | [] => acc
                  | t0 :: _ =>
                    if bloomMightContain (bloomBitsOf (filters.map (fun f => f.hash))) t0
                        && decide (t0 ∈ filters.map (fun f => f.hash)) then
                      if t0 ∈ acc then acc else acc ++ [t0]
                    else acc) [] := by
              rw [mem_matchingTopics_fold]
              exact Or.inr ⟨log, hlog, by rw [hto]; rfl, hmatch⟩
            rw [hm] at this
            cases this
      · rw [if_neg hm]
        constructor
        · intro _
          have hne : r.logs.foldl
              (fun acc log =>
                match log.topics with
                | [] => acc
                | t0 :: _ =>
                  if bloomMightContain (bloomBitsOf (filters.map (fun f => f.hash))) t0
                      && decide (t0 ∈ filters.map (fun f => f.hash)) then
                    if t0 ∈ acc then acc else acc ++ [t0]
                  else acc) [] ≠ [] := by
            intro hcon
            rw [hcon] at hm
            exact hm rfl
          obtain ⟨t, ht⟩ := List.exists_mem_of_ne_nil _ hne
          rw [mem_matchingTopics_fold] at ht
          rcases ht with h | ⟨log, hlog, hh, hc⟩
          · cases h
          · refine ⟨log, hlog, ?_⟩
            cases hto : log.topics with
            | nil =>
              rw [hto] at hh
              exact Option.noConfusion hh
            | cons t0 ts =>
              unfold codeLogMatches
              rw [hto]
              rw [hto, List.head?_cons] at hh
              cases hh
              exact hc
        · intro _
          rfl
  · intro ft hft t
    unfold processReceiptFromCache at hft
    by_cases hemp : r.logs.isEmpty
    · rw [if_pos hemp] at hft
      exact Option.noConfusion hft
    · rw [if_neg hemp] at hft
      by_cases hm : (r.logs.foldl
          (fun acc log =>
            match log.topics with
            | [] => acc
            | t0 :: _ =>
              if bloomMightContain (bloomBitsOf (filters.map (fun f => f.hash))) t0
                  && decide (t0 ∈ filters.map (fun f => f.hash)) then
                if t0 ∈ acc then acc else acc ++ [t0]
              else acc) []).isEmpty
      · rw [if_pos hm] at hft
        exact Option.noConfusion hft
      · rw [if_neg hm] at hft
        cases hft
        show t ∈ r.logs.foldl _ [] ↔ _
        rw [mem_matchingTopics_fold]
        constructor
        · rintro (h | ⟨log, hlog, hh, hc⟩)
          · cases h
          · rw [Bool.and_eq_true, decide_eq_true_eq] at hc
            exact ⟨log, hlog, hh, hc.2⟩
        · rintro ⟨log, hlog, hh, hmem⟩
          exact Or.inr ⟨log, hlog, hh,
            by rw [Bool.and_eq_true, decide_eq_true_eq]
               exact ⟨bloomMightContain_of_mem _ _ hmem, hmem⟩⟩

/-- Witness for `processReceiptFromCache_matches_topic_only`: an unscoped
filter for topic 9 matches the log `(address 1, topics [9])`. -/
def c4wFilters : List TopicFilter := [{ hash := 9, contractAddress := none }]

def c4wReceipt : Receipt := { txHash := 3, logs := [{ address := 1, topics := [9] }] }

theorem processReceiptFromCache_matches_topic_only_witness :
    (processReceiptFromCache c4wFilters c4wReceipt).isSome = true := by
  have h := processReceiptFromCache_matches_topic_only c4wFilters c4wReceipt
  exact h.2.1.mpr ⟨{ address := 1, topics := [9] }, by decide, by decide⟩

/-! ## C10: `NftTransferService.processTransaction` / `processTransferEvent` -/

/-- keccak256("Transfer(address,address,uint256)"), the ERC721 Transfer
event topic0 (`TRANSFER_EVENT_TOPIC` of the config). -/
def TRANSFER_EVENT_TOPIC : Nat :=
  0xddf252ad1be2c89b69c2b068fc378daa952ba7f163c4a11628f55a4df523b3ef

/-- The transaction message fed to `processTransaction`: hash, block number
and receipt logs (chain matching is modelled by the contract-address
parameter). -/
structure NftTx where
  hash : Nat
  blockNumber : Nat
  logs : List EvmLog
deriving DecidableEq, Repr

/-- The `NftTransfer` row built from a 4-topic Transfer log: topics[1] is
`from`, topics[2] is `to`, topics[3] is the tokenId. -/
def rowOfTransferLog (tx : NftTx) (log : EvmLog) : NftTransfer :=
  { transactionHash := tx.hash
    blockNumber := tx.blockNumber
    tokenId := log.topics.getD 3 0
    fromAddress := log.topics.getD 1 0
    toAddress := log.topics.getD 2 0
    includedInMerkle := false
    merkleRoot := none }

/-- `NftTransferService.processTransferEvent`: skip non-standard logs
(topic count other than 4), skip when the repository already holds a row
with the same transaction hash — the dedup key is the transaction hash
ALONE — otherwise save the new row. -/
def processTransferEvent (store : List NftTransfer) (tx : NftTx) (log : EvmLog) :
    List NftTransfer :=
  if log.topics.length ≠ 4 then store
  else if store.any (fun r => decide (r.transactionHash = tx.hash)) then store
  else store ++ [rowOfTransferLog tx log]

/-- One iteration of `processTransaction`'s log loop: only logs emitted by
the NFT contract whose topic0 is the Transfer topic reach
`processTransferEvent`. -/
def processLogStep (c : Addr) (tx : NftTx) (st : List NftTransfer) (log : EvmLog) :
    List NftTransfer :=
  if log.address = c ∧ log.topics.head? = some TRANSFER_EVENT_TOPIC then
    processTransferEvent st tx log
  else st

/-- `NftTransferService.processTransaction`: run the loop over the
transaction's logs. -/
def processTransaction (c : Addr) (store : List NftTransfer) (tx : NftTx) :
    List NftTransfer :=
  tx.logs.foldl (processLogStep c tx) store

/-- A whole message stream. -/
def processTransactions (c : Addr) (store : List NftTransfer) (txs : List NftTx) :
    List NftTransfer :=
  txs.foldl (processTransaction c) store

/-- At most one row per transaction hash. -/
def uniquePerTxHash (store : List NftTransfer) : Prop :=
  (store.map (fun r => r.transactionHash)).Nodup

/-- The first log of the transaction that passes every recording test:
right contract, Transfer topic0, exactly 4 topics. -/
def firstValidTransferLog (c : Addr) (logs : List EvmLog) : Option EvmLog :=
  logs.find? (fun l =>
    decide (l.address = c) && decide (l.topics.head? = some TRANSFER_EVENT_TOPIC)
      && decide (l.topics.length = 4))

theorem processTransferEvent_eq_of_dup (store : List NftTransfer) (tx : NftTx)
    (log : EvmLog) (h : ∃ r ∈ store, r.transactionHash = tx.hash) :
    processTransferEvent store tx log = store := by
  unfold processTransferEvent
  split_ifs with h1 h2
  · rfl
  · rfl
  · exfalso
    obtain ⟨r, hr, hh⟩ := h
    exact h2 (List.any_eq_true.mpr ⟨r, hr, by simp [hh]⟩)

theorem foldl_processLogStep_of_dup (c : Addr) (tx : NftTx) (logs : List EvmLog) :
    ∀ store : List NftTransfer, (∃ r ∈ store, r.transactionHash = tx.hash) →
      logs.foldl (processLogStep c tx) store = store := by
  induction logs with
  | nil => intro store _; rfl
  | cons l ls ih =>
    intro store h
    rw [List.foldl_cons]
    have hstep : processLogStep c tx store l = store := by
      unfold processLogStep
      split_ifs with hc
      · exact processTransferEvent_eq_of_dup store tx l h
      · rfl
    rw [hstep]
    exact ih store h

theorem foldl_processLogStep_fresh (c : Addr) (tx : NftTx) (logs : List EvmLog) :
    ∀ store : List NftTransfer, (∀ r ∈ store, r.transactionHash ≠ tx.hash) →
      logs.foldl (processLogStep c tx) store
        = store ++ (firstValidTransferLog c logs).elim []
            (fun l => [rowOfTransferLog tx l]) := by
  induction logs with
  | nil =>
    intro store _
    simp [firstValidTransferLog]
  | cons l ls ih =>
    intro store h
    rw [List.foldl_cons]
    by_cases hc : l.address = c ∧ l.topics.head? = some TRANSFER_EVENT_TOPIC
    · by_cases hlen : l.topics.length = 4
      · have hstep : processLogStep c tx store l = store ++ [rowOfTransferLog tx l] := by
          unfold processLogStep processTransferEvent
          rw [if_pos hc, if_neg (fun hn => hn hlen), if_neg]
          intro hany
          obtain ⟨r, hr, hd⟩ := List.any_eq_true.mp hany
          rw [decide_eq_true_eq] at hd
          exact h r hr hd
        rw [hstep]
        have hdup : ∃ r ∈ store ++ [rowOfTransferLog tx l], r.transactionHash = tx.hash :=
          ⟨rowOfTransferLog tx l, by simp, rfl⟩
        rw [foldl_processLogStep_of_dup c tx ls _ hdup]
        have hfv : firstValidTransferLog c (l :: ls) = some l := by
          unfold firstValidTransferLog
          rw [List.find?_cons_of_pos]
          simp [hc.1, hc.2, hlen]
        rw [hfv]
        rfl
      · have hstep : processLogStep c tx store l = store := by
          unfold processLogStep processTransferEvent
          rw [if_pos hc, if_pos hlen]
        rw [hstep]
        have hfv : firstValidTransferLog c (l :: ls) = firstValidTransferLog c ls := by
          unfold firstValidTransferLog
          rw [List.find?_cons_of_neg]
          simp [hlen]
        rw [hfv]
        exact ih store h
    · have hstep : processLogStep c tx store l = store := by
        unfold processLogStep
        rw [if_neg hc]
      rw [hstep]
      have hfv : firstValidTransferLog c (l :: ls) = firstValidTransferLog c ls := by
        unfold firstValidTransferLog
        rw [List.find?_cons_of_neg]
        simp only [Bool.and_eq_true, decide_eq_true_eq]
        rintro ⟨⟨h1, h2⟩, _⟩
        exact hc ⟨h1, h2⟩
      rw [hfv]
      exact ih store h

theorem processTransferEvent_unique (store : List NftTransfer) (tx : NftTx)
    (log : EvmLog) (h : uniquePerTxHash store) :
    uniquePerTxHash (processTransferEvent store tx log) := by
  unfold processTransferEvent
  split_ifs with h1 h2
  · exact h
  · exact h
  · unfold uniquePerTxHash at h ⊢
    rw [List.map_append, List.nodup_append]
    refine ⟨h, by simp, ?_⟩
    intro a ha hb
    have hb' : a = tx.hash := by
      simpa [rowOfTransferLog] using hb
    subst hb'
    obtain ⟨r, hr, hh⟩ := List.mem_map.mp ha
    exact h2 (List.any_eq_true.mpr ⟨r, hr, by simp [hh]⟩)

theorem foldl_processLogStep_unique (c : Addr) (tx : NftTx) (logs : List EvmLog) :
    ∀ store : List NftTransfer, uniquePerTxHash store →
      uniquePerTxHash (logs.foldl (processLogStep c tx) store) := by
  induction logs with
  | nil => intro store h; exact h
  | cons l ls ih =>
    intro store h
    rw [List.foldl_cons]
    refine ih _ ?_
    unfold processLogStep
    split_ifs with hc
    · exact processTransferEvent_unique store tx l h
    · exact h

theorem processTransactions_unique (c : Addr) (txs : List NftTx) :
    ∀ store : List NftTransfer, uniquePerTxHash store →
      uniquePerTxHash (processTransactions c store txs) := by
  induction txs with
  | nil => intro store h; exact h
  | cons tx rest ih =>
    intro store h
    show uniquePerTxHash (((tx :: rest).foldl (processTransaction c) store))
    rw [List.foldl_cons]
    exact ih _ (foldl_processLogStep_unique c tx tx.logs store h)

/-- Claim C10: NFT transfer dedup keys on the transaction hash alone, so
(i) a store with at most one row per transaction hash keeps that property
across any sequence of processed messages, and (ii) processing a
transaction whose hash is not yet stored appends exactly the row of the
FIRST log passing the tests (right contract, Transfer topic0, 4 topics) —
every later Transfer log of the same transaction is silently skipped — or
nothing when no log passes. -/
theorem processTransaction_dedup_by_txHash (c : Addr) (store : List NftTransfer)
    (txs : List NftTx) (tx : NftTx)
    (hu : uniquePerTxHash store)
    (hfresh : ∀ r ∈ store, r.transactionHash ≠ tx.hash) :
    uniquePerTxHash (processTransactions c store txs)
    ∧ processTransaction c store tx
        = store ++ (firstValidTransferLog c tx.logs).elim []
            (fun l => [rowOfTransferLog tx l]) :=
  ⟨processTransactions_unique c txs store hu,
   foldl_processLogStep_fresh c tx tx.logs store hfresh⟩

/-- Witness transaction: two valid ERC721 Transfer logs (different
recipients and tokenIds) in one transaction. -/
def c10Tx : NftTx :=
  { hash := 42
    blockNumber := 7
    logs := [{ address := 1, topics := [TRANSFER_EVENT_TOPIC, 0, 5, 11] },
             { address := 1, topics := [TRANSFER_EVENT_TOPIC, 0, 6, 12] }] }

theorem processTransaction_dedup_by_txHash_witness :
    uniquePerTxHash (processTransactions 1 [] [c10Tx])
    ∧ processTransaction 1 [] c10Tx
        = [] ++ (firstValidTransferLog 1 c10Tx.logs).elim []
            (fun l => [rowOfTransferLog c10Tx l]) :=
  processTransaction_dedup_by_txHash 1 [] [c10Tx] c10Tx
    (by simp [uniquePerTxHash]) (by simp)

end Backend
